import Mathlib

/-!
Verification of the emitter/listener core (`src/lib/emit.ts`) and the argument-binding
helpers (`src/unnamed/part_000`) of the grainjs repository.

The TypeScript code is a doubly-linked circular list of listener nodes whose sentinel is
the `Emitter` object itself.  We embed it shallowly: every `LLink` object is a natural
number (its identity), the mutable `_next`/`_prev` fields live in an explicit heap
`Nat → Node`, and each JavaScript field assignment becomes a pointwise heap update.
A dereference of `null` (a JavaScript `TypeError`) is modelled by returning `none`.
The two `while` loops of the source (`Listener.callAll` and `LLink._disposeList`) are
unbounded in JavaScript; they are modelled with an explicit fuel argument, and fuel
exhaustion also yields `none`, so every theorem concluding `some _` really proves the
loop terminates within the provided fuel.
-/

/-- One `LLink` object: its `_next` and `_prev` fields.  `none` is JavaScript `null`. -/
structure Node where
  nxt : Option Nat
  prv : Option Nat
deriving Repr, DecidableEq

/-- The heap: the `_next`/`_prev` fields of every object identity. -/
abbrev Heap := Nat → Node

/-- The JavaScript assignment `i._next = v`. -/
def setNxt (h : Heap) (i : Nat) (v : Option Nat) : Heap :=
  fun z => if z = i then { h z with nxt := v } else h z

/-- The JavaScript assignment `i._prev = v`. -/
def setPrv (h : Heap) (i : Nat) (v : Option Nat) : Heap :=
  fun z => if z = i then { h z with prv := v } else h z

/-- `LLink.isDisposed()`: `return !this._next`. -/
def isDisposed (h : Heap) (x : Nat) : Bool :=
  (h x).nxt.isNone

/-- `Emitter.hasListeners()`: `return this._next !== this`. -/
def hasListeners (h : Heap) (e : Nat) : Bool :=
  (h e).nxt != some e

/-- `LLink._insertBefore(next, node)`.  The source reads `const last = next._prev!` and then
assigns `last._next = node`; if `next._prev` is `null` that assignment throws, which we
model as `none`.  Otherwise the four field assignments are performed in source order. -/
def insertBefore (h : Heap) (next node : Nat) : Option Heap :=
  match (h next).prv with
  | none => none
  | some last =>
    some (setNxt (setPrv (setPrv (setNxt h last (some node)) next (some node)) node (some last)) node (some next))

/-- `LLink._removeNode(node)`.  When `node._prev` is non-null the source performs
`node._prev._next = node._next` and then `node._next!._prev = node._prev` (re-reading the
fields after the first write); a `null` value of `node._next` there throws (`none`).
Finally `node._prev = node._next = null`. -/
def removeNode (h : Heap) (node : Nat) : Option Heap :=
  match (h node).prv with
  | none => some (setPrv (setNxt h node none) node none)
  | some p =>
    let h1 := setNxt h p ((h node).nxt)
    match (h1 node).nxt with
    | none => none
    | some nx =>
      let h2 := setPrv h1 nx ((h1 node).prv)
      some (setPrv (setNxt h2 node none) node none)

/-- The `while` loop of `LLink._disposeList()`: starting from `this`, repeatedly null the
current node's links and advance along the saved `next` pointer until it is `null`.
`fuel` bounds the number of iterations; exhaustion yields `none`. -/
def disposeLoop : Nat → Heap → Nat → Option Heap
  | 0, _, _ => none
  | fuel + 1, h, node =>
    match (h node).nxt with
    | none => some h
    | some next => disposeLoop fuel (setPrv (setNxt h node none) node none) next

/-- The behaviours a listener callback can have in our model: do nothing, dispose a
listener (by identity), or add a new listener carrying its own callback.  This is the
universe of re-entrant behaviours the claims quantify over. -/
inductive CB where
  | pure : CB
  | disposeL : Nat → CB
  | addL : CB → CB
deriving Repr, DecidableEq

/-- Observable events: a listener callback invoked with the emitted arguments, or the
emitter's change-notification hook `_triggerChangeCB` firing with `hasListeners()`. -/
inductive Ev where
  | call : Nat → List Nat → Ev
  | change : Bool → Ev
deriving Repr, DecidableEq

/-- The state of one emitter and all listener objects ever created for it: `e` is the
sentinel's identity, `heap` the link fields, `cbs` each listener's callback, `changeCB`
whether a real change callback is installed (`false` models `_noop`), and `nextId` the
allocator for fresh object identities. -/
structure EmSt where
  e : Nat
  heap : Heap
  cbs : Nat → CB
  changeCB : Bool
  nextId : Nat

/-- Pointwise function update (used for the callback table). -/
def updF {α : Type} (f : Nat → α) (i : Nat) (v : α) : Nat → α :=
  fun z => if z = i then v else f z

/-- `new Emitter()`: a single node whose `LLink` constructor links it to itself. -/
def mkEmitter : EmSt :=
  { e := 0
    heap := setPrv (setNxt (fun _ => ⟨none, none⟩) 0 (some 0)) 0 (some 0)
    cbs := fun _ => CB.pure
    changeCB := false
    nextId := 1 }

/-- `emitter.addListener(callback)`, i.e. `new Listener(emitter, callback)`: the `LLink`
constructor self-links the fresh node, `_insertBefore(emitter, this)` splices it in
before the sentinel, and on success `emitter._triggerChangeCB()` fires.  If the splice
throws (disposed emitter), the error propagates (`none`). -/
def addListenerCore (s : EmSt) (cb : CB) : Option EmSt × List Ev :=
  let w := s.nextId
  let h0 := setPrv (setNxt s.heap w (some w)) w (some w)
  match insertBefore h0 s.e w with
  | none => (none, [])
  | some h1 =>
    (some { s with heap := h1, cbs := updF s.cbs w cb, nextId := w + 1 },
     [Ev.change (hasListeners h1 s.e)])

/-- `Listener.dispose()`: return if already disposed, otherwise `_removeNode(this)` and
then `emitter._triggerChangeCB()`. -/
def listenerDispose (s : EmSt) (y : Nat) : Option EmSt × List Ev :=
  if isDisposed s.heap y then (some s, [])
  else
    match removeNode s.heap y with
    | none => (none, [])
    | some h2 => (some { s with heap := h2 }, [Ev.change (hasListeners h2 s.e)])

/-- Run one callback body. -/
def runCB (s : EmSt) : CB → Option EmSt × List Ev
  | CB.pure => (some s, [])
  | CB.disposeL y => listenerDispose s y
  | CB.addL cb => addListenerCore s cb

/-- `Listener.callAll(begin, end, args)`: `while (begin !== end) { const lis = begin;
lis.callback.call(lis.context, ...args); begin = lis._next!; }`.  A `null` value of
`begin` makes the body dereference `null` (a TypeError), modelled as `none`; after the
callback the walk advances along the possibly-mutated heap. -/
def callAll (args : List Nat) : Nat → EmSt → Option Nat → Option EmSt × List Ev
  | 0, _, _ => (none, [])
  | fuel + 1, s, b =>
    if b = some s.e then (some s, [])
    else
      match b with
      | none => (none, [])
      | some r =>
        match runCB s (s.cbs r) with
        | (none, tr1) => (none, Ev.call r args :: tr1)
        | (some s1, tr1) =>
          match callAll args fuel s1 ((s1.heap r).nxt) with
          | (res, tr2) => (res, Ev.call r args :: (tr1 ++ tr2))

/-- `Emitter.emit(...args)`: `Listener.callAll(this._next!, this, args)`. -/
def emit (s : EmSt) (fuel : Nat) (args : List Nat) : Option EmSt × List Ev :=
  callAll args fuel s ((s.heap s.e).nxt)

/-- `Emitter.dispose()`: `this._disposeList()`, then reset the change callback to the
no-op.  No listener callback and no change callback is invoked, so no events arise. -/
def emitterDispose (s : EmSt) (fuel : Nat) : Option EmSt :=
  match disposeLoop fuel s.heap s.e with
  | none => none
  | some h1 => some { s with heap := h1, changeCB := false }

/-- The top-level operations a client can perform on one emitter.  The `fuel` arguments
bound the two source `while` loops (see module docstring). -/
inductive Op where
  | add : CB → Op
  | disposeL : Nat → Op
  | emit : Nat → List Nat → Op
  | disposeE : Nat → Op
deriving Repr, DecidableEq

/-- Run one operation. -/
def runOp (s : EmSt) : Op → Option EmSt × List Ev
  | Op.add cb => addListenerCore s cb
  | Op.disposeL y => listenerDispose s y
  | Op.emit fuel args => emit s fuel args
  | Op.disposeE fuel => (emitterDispose s fuel, [])

/-- Run a sequence of operations, stopping at the first error and concatenating traces. -/
def runOps (s : EmSt) : List Op → Option EmSt × List Ev
  | [] => (some s, [])
  | op :: ops =>
    match runOp s op with
    | (none, tr) => (none, tr)
    | (some s1, tr) =>
      match runOps s1 ops with
      | (res, tr2) => (res, tr ++ tr2)

/-! ### The argument-binding helpers of `src/unnamed/part_000`

A variadic JavaScript function is modelled as a function on its argument list.  Each
helper switches on the length of the bound-argument array, with a generic fallback for
lengths above 8. -/

/-- `bindB(func, b)`: returns `f` such that `f()` calls `func(...b)`. -/
def bindB {α β : Type} (func : List α → β) (b : List α) : Unit → β :=
  match b with
  | [] => fun _ => func []
  | [a0] => fun _ => func [a0]
  | [a0, a1] => fun _ => func [a0, a1]
  | [a0, a1, a2] => fun _ => func [a0, a1, a2]
  | [a0, a1, a2, a3] => fun _ => func [a0, a1, a2, a3]
  | [a0, a1, a2, a3, a4] => fun _ => func [a0, a1, a2, a3, a4]
  | [a0, a1, a2, a3, a4, a5] => fun _ => func [a0, a1, a2, a3, a4, a5]
  | [a0, a1, a2, a3, a4, a5, a6] => fun _ => func [a0, a1, a2, a3, a4, a5, a6]
  | [a0, a1, a2, a3, a4, a5, a6, a7] => fun _ => func [a0, a1, a2, a3, a4, a5, a6, a7]
  | _ => fun _ => func b

/-- `bindUB(func, b)`: returns `f` such that `f(arg)` calls `func(arg, ...b)`. -/
def bindUB {α β : Type} (func : List α → β) (b : List α) : α → β :=
  match b with
  | [] => fun arg => func [arg]
  | [a0] => fun arg => func [arg, a0]
  | [a0, a1] => fun arg => func [arg, a0, a1]
  | [a0, a1, a2] => fun arg => func [arg, a0, a1, a2]
  | [a0, a1, a2, a3] => fun arg => func [arg, a0, a1, a2, a3]
  | [a0, a1, a2, a3, a4] => fun arg => func [arg, a0, a1, a2, a3, a4]
  | [a0, a1, a2, a3, a4, a5] => fun arg => func [arg, a0, a1, a2, a3, a4, a5]
  | [a0, a1, a2, a3, a4, a5, a6] => fun arg => func [arg, a0, a1, a2, a3, a4, a5, a6]
  | [a0, a1, a2, a3, a4, a5, a6, a7] => fun arg => func [arg, a0, a1, a2, a3, a4, a5, a6, a7]
  | _ => fun arg => func (arg :: b)

/-- `bindBU(func, b)`: returns `f` such that `f(arg)` calls `func(...b, arg)`. -/
def bindBU {α β : Type} (func : List α → β) (b : List α) : α → β :=
  match b with
  | [] => fun arg => func [arg]
  | [a0] => fun arg => func [a0, arg]
  | [a0, a1] => fun arg => func [a0, a1, arg]
  | [a0, a1, a2] => fun arg => func [a0, a1, a2, arg]
  | [a0, a1, a2, a3] => fun arg => func [a0, a1, a2, a3, arg]
  | [a0, a1, a2, a3, a4] => fun arg => func [a0, a1, a2, a3, a4, arg]
  | [a0, a1, a2, a3, a4, a5] => fun arg => func [a0, a1, a2, a3, a4, a5, arg]
  | [a0, a1, a2, a3, a4, a5, a6] => fun arg => func [a0, a1, a2, a3, a4, a5, a6, arg]
  | [a0, a1, a2, a3, a4, a5, a6, a7] => fun arg => func [a0, a1, a2, a3, a4, a5, a6, a7, arg]
  | _ => fun arg => func (b ++ [arg])

/-! ### The list representation predicate

`chainB h e a ls` says: starting from node `a`, the `_next` pointers run through exactly
the nodes of `ls` and then reach `e`, with each `_prev` pointer mirroring the `_next`
that enters the node (the last `_prev` condition being `e`'s own). -/

/-- The circular-list chain predicate (executable). -/
def chainB (h : Heap) (e : Nat) : Nat → List Nat → Bool
  | a, [] => ((h a).nxt == some e) && ((h e).prv == some a)
  | a, x :: xs => ((h a).nxt == some x) && ((h x).prv == some a) && chainB h e x xs

/-- The well-formedness invariant of an emitter state: the sentinel together with the
listeners `ls` forms the circular list (in insertion order), every other node is fully
unlinked, and all allocated identities are below the allocator counter. -/
structure EmInv (s : EmSt) (ls : List Nat) : Prop where
  nodup : (s.e :: ls).Nodup
  chain : chainB s.heap s.e s.e ls = true
  off : ∀ z, z ∉ s.e :: ls → s.heap z = ⟨none, none⟩
  bound : ∀ z ∈ s.e :: ls, z < s.nextId

/-- A callback is legal if it never names the sentinel as a listener to dispose:
in the source a `Listener.dispose` call can only target a `Listener` object, never the
`Emitter` itself. -/
def CB.legalB (e : Nat) : CB → Bool
  | CB.pure => true
  | CB.disposeL y => y != e
  | CB.addL cb => CB.legalB e cb

/-- All installed callbacks are legal. -/
def legalCbs (s : EmSt) : Prop :=
  ∀ x, CB.legalB s.e (s.cbs x) = true

/-- An operation is legal under the same typing discipline. -/
def Op.legalB (e : Nat) : Op → Bool
  | Op.add cb => CB.legalB e cb
  | Op.disposeL y => y != e
  | Op.emit _ _ => true
  | Op.disposeE _ => true

/-- Whether an operation is `Emitter.dispose`. -/
def Op.isDisposeE : Op → Bool
  | Op.disposeE _ => true
  | _ => false

/-- A callback whose execution does not change the state: it is a no-op, or it disposes
an already-disposed listener (the self-check in `Listener.dispose` makes that a no-op). -/
def inert (s : EmSt) (r : Nat) : Prop :=
  match s.cbs r with
  | CB.pure => True
  | CB.disposeL y => (s.heap y).nxt = none
  | CB.addL _ => False

/-- Some listener node other than the sentinel is currently linked. -/
def HasLinkedListener (s : EmSt) : Prop :=
  ∃ x, x ≠ s.e ∧ (s.heap x).nxt ≠ none

/-! ### Basic pointwise lemmas about heap updates -/

theorem setNxt_nxt (h : Heap) (i : Nat) (v : Option Nat) (z : Nat) :
    ((setNxt h i v) z).nxt = if z = i then v else (h z).nxt := by
  simp only [setNxt]; split <;> rfl

theorem setNxt_prv (h : Heap) (i : Nat) (v : Option Nat) (z : Nat) :
    ((setNxt h i v) z).prv = (h z).prv := by
  simp only [setNxt]; split <;> rfl

theorem setPrv_nxt (h : Heap) (i : Nat) (v : Option Nat) (z : Nat) :
    ((setPrv h i v) z).nxt = (h z).nxt := by
  simp only [setPrv]; split <;> rfl

theorem setPrv_prv (h : Heap) (i : Nat) (v : Option Nat) (z : Nat) :
    ((setPrv h i v) z).prv = if z = i then v else (h z).prv := by
  simp only [setPrv]; split <;> rfl

/-! ### Lemmas about the chain predicate -/

theorem chainB_nil_iff (h : Heap) (e a : Nat) :
    chainB h e a [] = true ↔ (h a).nxt = some e ∧ (h e).prv = some a := by
  simp [chainB]

theorem chainB_cons_iff (h : Heap) (e a x : Nat) (xs : List Nat) :
    chainB h e a (x :: xs) = true ↔
      (h a).nxt = some x ∧ (h x).prv = some a ∧ chainB h e x xs = true := by
  simp [chainB, and_assoc]

theorem chainB_congr (h h2 : Heap) (e : Nat) :
    ∀ (ls : List Nat) (a : Nat),
      (∀ z ∈ a :: ls, (h2 z).nxt = (h z).nxt) →
      (∀ z ∈ ls ++ [e], (h2 z).prv = (h z).prv) →
      chainB h e a ls = true → chainB h2 e a ls = true := by
  intro ls
  induction ls with
  | nil =>
    intro a hn hp hc
    rw [chainB_nil_iff] at hc ⊢
    rw [hn a (by simp), hp e (by simp)]
    exact hc
  | cons x xs ih =>
    intro a hn hp hc
    rw [chainB_cons_iff] at hc ⊢
    obtain ⟨h1, h2', h3⟩ := hc
    refine ⟨?_, ?_, ?_⟩
    · rw [hn a (by simp)]; exact h1
    · rw [hp x (by simp)]; exact h2'
    · exact ih x (fun z hz => hn z (List.mem_cons_of_mem _ hz))
        (fun z hz => hp z (by
          rcases List.mem_append.mp hz with h | h
          · exact List.mem_append.mpr (Or.inl (List.mem_cons_of_mem _ h))
          · exact List.mem_append.mpr (Or.inr h))) h3

theorem chainB_head (h : Heap) (e a : Nat) (ls : List Nat) (hc : chainB h e a ls = true) :
    (h a).nxt = some (ls.headD e) := by
  cases ls with
  | nil => exact ((chainB_nil_iff h e a).mp hc).1
  | cons x xs => exact ((chainB_cons_iff h e a x xs).mp hc).1

theorem chainB_elast (h : Heap) (e : Nat) :
    ∀ (ls : List Nat) (a : Nat), chainB h e a ls = true → (h e).prv = some (ls.getLastD a) := by
  intro ls
  induction ls with
  | nil => intro a hc; simpa using ((chainB_nil_iff h e a).mp hc).2
  | cons x xs ih =>
    intro a hc
    rw [chainB_cons_iff] at hc
    rw [List.getLastD_cons]
    exact ih x hc.2.2

theorem chainB_nxt_at (h : Heap) (e r : Nat) (v : List Nat) :
    ∀ (u : List Nat) (a : Nat), chainB h e a (u ++ r :: v) = true →
      (h r).nxt = some (v.headD e) := by
  intro u
  induction u with
  | nil =>
    intro a hc
    rw [List.nil_append, chainB_cons_iff] at hc
    exact chainB_head h e r v hc.2.2
  | cons b u2 ih =>
    intro a hc
    rw [List.cons_append, chainB_cons_iff] at hc
    exact ih b hc.2.2

theorem chainB_prv_at (h : Heap) (e y : Nat) (v : List Nat) :
    ∀ (u : List Nat) (a : Nat), chainB h e a (u ++ y :: v) = true →
      (h y).prv = some (u.getLastD a) := by
  intro u
  induction u with
  | nil =>
    intro a hc
    rw [List.nil_append, chainB_cons_iff] at hc
    simpa using hc.2.1
  | cons b u2 ih =>
    intro a hc
    rw [List.cons_append, chainB_cons_iff] at hc
    rw [List.getLastD_cons]
    exact ih b hc.2.2

theorem headD_mem_cons (v : List Nat) (e : Nat) : v.headD e ∈ e :: v := by
  cases v <;> simp

theorem getLastD_mem_cons' (u : List Nat) (a : Nat) : u.getLastD a ∈ a :: u :=
  List.getLastD_mem_cons u a

/-! ### Pointwise specifications of removal and insertion -/

theorem removeNode_spec (h : Heap) (y p q : Nat) (hp : (h y).prv = some p)
    (hq : (h y).nxt = some q) (hyp : y ≠ p) :
    ∃ h2, removeNode h y = some h2 ∧
      (∀ z, (h2 z).nxt = if z = y then none else if z = p then some q else (h z).nxt) ∧
      (∀ z, (h2 z).prv = if z = y then none else if z = q then some p else (h z).prv) := by
  have hstep : ((setNxt h p ((h y).nxt)) y).nxt = some q := by
    rw [setNxt_nxt, if_neg hyp, hq]
  have hrm : removeNode h y =
      some (setPrv (setNxt (setPrv (setNxt h p ((h y).nxt)) q
        (((setNxt h p ((h y).nxt)) y).prv)) y none) y none) := by
    rw [removeNode, hp]
    simp only [hstep]
  refine ⟨_, hrm, ?_, ?_⟩
  · intro z
    simp only [setPrv_nxt, setNxt_nxt, setPrv_prv, setNxt_prv]
    by_cases hzy : z = y
    · simp [hzy]
    · by_cases hzp : z = p
      · simp [hzy, hzp, hq]
      · simp [hzy, hzp]
  · intro z
    simp only [setPrv_nxt, setNxt_nxt, setPrv_prv, setNxt_prv]
    by_cases hzy : z = y
    · simp [hzy]
    · by_cases hzq : z = q
      · simp [hzy, hzq, if_neg hyp, hp]
      · simp [hzy, hzq]

theorem insertAt_spec (h : Heap) (e w last : Nat) (hl : (h e).prv = some last)
    (hwe : w ≠ e) (hwl : w ≠ last) :
    ∃ h2, insertBefore (setPrv (setNxt h w (some w)) w (some w)) e w = some h2 ∧
      (∀ z, (h2 z).nxt = if z = w then some e else if z = last then some w else (h z).nxt) ∧
      (∀ z, (h2 z).prv = if z = w then some last else if z = e then some w else (h z).prv) := by
  have h0 : ((setPrv (setNxt h w (some w)) w (some w)) e).prv = some last := by
    rw [setPrv_prv, if_neg (Ne.symm hwe), setNxt_prv]; exact hl
  have hins : insertBefore (setPrv (setNxt h w (some w)) w (some w)) e w =
      some (setNxt (setPrv (setPrv (setNxt (setPrv (setNxt h w (some w)) w (some w)) last
        (some w)) e (some w)) w (some last)) w (some e)) := by
    rw [insertBefore, h0]
  refine ⟨_, hins, ?_, ?_⟩
  · intro z
    simp only [setPrv_nxt, setNxt_nxt, setPrv_prv, setNxt_prv]
    by_cases hzw : z = w
    · simp [hzw]
    · by_cases hzl : z = last
      · simp [hzw, hzl, Ne.symm hwl]
      · simp [hzw, hzl]
  · intro z
    simp only [setPrv_nxt, setNxt_nxt, setPrv_prv, setNxt_prv]
    by_cases hzw : z = w
    · simp [hzw]
    · by_cases hze : z = e
      · simp [hzw, hze]
      · simp [hzw, hze]

/-! ### Chain surgery: removing and inserting a node preserves the chain -/

theorem chainB_remove (h h2 : Heap) (e y p q : Nat)
    (hnx : ∀ z, (h2 z).nxt = if z = y then none else if z = p then some q else (h z).nxt)
    (hpv : ∀ z, (h2 z).prv = if z = y then none else if z = q then some p else (h z).prv)
    (hye : y ≠ e) :
    ∀ (u : List Nat) (a : Nat) (v : List Nat),
      chainB h e a (u ++ y :: v) = true →
      p = u.getLastD a → q = v.headD e →
      y ∉ u → y ∉ v → a ≠ y → e ∉ u → e ∉ v → a ∉ u → a ∉ v →
      (u ++ v).Nodup →
      chainB h2 e a (u ++ v) = true := by
  intro u
  induction u with
  | nil =>
    intro a v hc hp hq hyu hyv hay heu hev hau hav hnd
    rw [List.nil_append] at hc ⊢
    rw [chainB_cons_iff] at hc
    obtain ⟨hc1, hc2, hc3⟩ := hc
    simp only [List.getLastD_nil] at hp
    cases v with
    | nil =>
      rw [chainB_nil_iff]
      simp only [List.headD_nil] at hq
      constructor
      · rw [hnx a, if_neg hay, if_pos hp.symm, hq]
      · rw [hpv e, if_neg (Ne.symm hye), if_pos hq.symm, hp]
    | cons x xs =>
      rw [chainB_cons_iff]
      simp only [List.headD_cons] at hq
      have hxy : x ≠ y := fun hh => hyv (hh ▸ List.mem_cons_self x xs)
      refine ⟨?_, ?_, ?_⟩
      · rw [hnx a, if_neg hay, if_pos hp.symm, hq]
      · rw [hpv x, if_neg hxy, if_pos hq.symm, hp]
      · refine chainB_congr h h2 e xs x ?_ ?_ (((chainB_cons_iff h e y x xs).mp hc3).2.2)
        · intro z hz
          have hzy : z ≠ y := fun hh => hyv (hh ▸ hz)
          have hza : z ≠ p := by
            rw [hp]; exact fun hh => hav (hh ▸ hz)
          rw [hnx z, if_neg hzy, if_neg hza]
        · intro z hz
          rcases List.mem_append.mp hz with hz1 | hz1
          · have hzy : z ≠ y := fun hh => hyv (hh ▸ List.mem_cons_of_mem x hz1)
            have hzq : z ≠ q := by
              rw [hq]
              rintro rfl
              exact (List.nodup_cons.mp hnd).1 hz1
            rw [hpv z, if_neg hzy, if_neg hzq]
          · have hze : z = e := by simpa using hz1
            subst hze
            have hzq : z ≠ q := by
              rw [hq]; rintro rfl; exact hev (List.mem_cons_self _ _)
            rw [hpv z, if_neg (Ne.symm hye), if_neg hzq]
  | cons b u2 ih =>
    intro a v hc hp hq hyu hyv hay heu hev hau hav hnd
    rw [List.cons_append] at hc ⊢
    rw [chainB_cons_iff] at hc ⊢
    obtain ⟨hc1, hc2, hc3⟩ := hc
    rw [List.getLastD_cons] at hp
    have hby : b ≠ y := fun hh => hyu (hh ▸ List.mem_cons_self b u2)
    have hpu : p ∈ b :: u2 := hp ▸ getLastD_mem_cons' u2 b
    have hnd2 : (u2 ++ v).Nodup := (List.nodup_cons.mp hnd).2
    have hbnotin : b ∉ u2 ++ v := (List.nodup_cons.mp hnd).1
    refine ⟨?_, ?_, ?_⟩
    · have hap : a ≠ p := fun hh => hau (hh ▸ hpu)
      rw [hnx a, if_neg hay, if_neg hap]
      exact hc1
    · have hbq : b ≠ q := by
        rw [hq]
        intro hh
        rcases List.mem_cons.mp (hh ▸ headD_mem_cons v e) with h1 | h1
        · exact heu (h1 ▸ List.mem_cons_self b u2)
        · exact hbnotin (List.mem_append.mpr (Or.inr h1))
      rw [hpv b, if_neg hby, if_neg hbq]
      exact hc2
    · exact ih b v hc3 hp hq
        (fun hh => hyu (List.mem_cons_of_mem b hh)) hyv hby
        (fun hh => heu (List.mem_cons_of_mem b hh)) hev
        (fun hh => hbnotin (List.mem_append.mpr (Or.inl hh)))
        (fun hh => hbnotin (List.mem_append.mpr (Or.inr hh))) hnd2

theorem chainB_insert (h h2 : Heap) (e w last : Nat)
    (hnx : ∀ z, (h2 z).nxt = if z = w then some e else if z = last then some w else (h z).nxt)
    (hpv : ∀ z, (h2 z).prv = if z = w then some last else if z = e then some w else (h z).prv)
    (hwe : w ≠ e) :
    ∀ (ls : List Nat) (a : Nat),
      chainB h e a ls = true → last = ls.getLastD a →
      w ≠ a → w ∉ ls → e ∉ ls → a ∉ ls → ls.Nodup →
      chainB h2 e a (ls ++ [w]) = true := by
  intro ls
  induction ls with
  | nil =>
    intro a hc hl hwa hwls hels hals hnd
    simp only [List.getLastD_nil] at hl
    rw [List.nil_append, chainB_cons_iff, chainB_nil_iff]
    refine ⟨?_, ?_, ?_, ?_⟩
    · rw [hnx a, if_neg (Ne.symm hwa), if_pos hl.symm]
    · rw [hpv w, if_pos rfl, hl]
    · rw [hnx w, if_pos rfl]
    · rw [hpv e, if_neg (Ne.symm hwe), if_pos rfl]
  | cons x xs ih =>
    intro a hc hl hwa hwls hels hals hnd
    rw [List.cons_append, chainB_cons_iff]
    rw [chainB_cons_iff] at hc
    obtain ⟨hc1, hc2, hc3⟩ := hc
    rw [List.getLastD_cons] at hl
    have hlast : last ∈ x :: xs := hl ▸ getLastD_mem_cons' xs x
    have hwx : w ≠ x := fun hh => hwls (hh ▸ List.mem_cons_self x xs)
    refine ⟨?_, ?_, ?_⟩
    · have hal : a ≠ last := fun hh => hals (hh ▸ hlast)
      rw [hnx a, if_neg (Ne.symm hwa), if_neg hal]
      exact hc1
    · have hxe : x ≠ e := fun hh => hels (hh ▸ List.mem_cons_self x xs)
      rw [hpv x, if_neg (Ne.symm hwx), if_neg hxe]
      exact hc2
    · exact ih x hc3 hl hwx
        (fun hh => hwls (List.mem_cons_of_mem x hh))
        (fun hh => hels (List.mem_cons_of_mem x hh))
        (List.nodup_cons.mp hnd).1 (List.nodup_cons.mp hnd).2

/-! ### State-level specifications of listener disposal and addition -/

theorem Node_eta (n : Node) : n = ⟨n.nxt, n.prv⟩ := rfl

theorem EmInv_hasListeners (s : EmSt) (ls : List Nat) (hinv : EmInv s ls) :
    hasListeners s.heap s.e = !ls.isEmpty := by
  have hh := chainB_head s.heap s.e s.e ls hinv.chain
  cases ls with
  | nil => simp [hasListeners, hh]
  | cons x xs =>
    have hxe : x ≠ s.e := by
      intro hh2
    -- the sentinel is not among the listeners
      have := hinv.nodup
      rw [List.nodup_cons] at this
      exact this.1 (hh2 ▸ List.mem_cons_self x xs)
    simp only [List.headD_cons] at hh
    simp [hasListeners, hh, hxe]

theorem linked_mem_ring (s : EmSt) (ls : List Nat) (hinv : EmInv s ls) (z : Nat)
    (hz : (s.heap z).nxt ≠ none) : z ∈ s.e :: ls := by
  by_contra hmem
  have := hinv.off z hmem
  rw [this] at hz
  exact hz rfl

theorem listenerDispose_spec (s : EmSt) (u v : List Nat) (y : Nat)
    (hinv : EmInv s (u ++ y :: v)) :
    ∃ h2, listenerDispose s y = (some { s with heap := h2 }, [Ev.change (hasListeners h2 s.e)]) ∧
      EmInv { s with heap := h2 } (u ++ v) ∧ h2 y = ⟨none, none⟩ := by
  have hnd := hinv.nodup
  rw [List.nodup_cons] at hnd
  obtain ⟨hemem, hndl⟩ := hnd
  rw [List.nodup_append] at hndl
  obtain ⟨hndu, hndyv, hdisj⟩ := hndl
  rw [List.nodup_cons] at hndyv
  obtain ⟨hyv, hndv⟩ := hndyv
  have heu : s.e ∉ u := fun hh => hemem (List.mem_append.mpr (Or.inl hh))
  have hey : s.e ≠ y := fun hh => hemem (List.mem_append.mpr (Or.inr (hh ▸ List.mem_cons_self y v)))
  have hev : s.e ∉ v := fun hh => hemem (List.mem_append.mpr (Or.inr (List.mem_cons_of_mem y hh)))
  have hyu : y ∉ u := fun hh => (hdisj hh) (List.mem_cons_self y v)
  have hp := chainB_prv_at s.heap s.e y v u s.e hinv.chain
  have hq := chainB_nxt_at s.heap s.e y v u s.e hinv.chain
  have hyp : y ≠ u.getLastD s.e := by
    intro hh
    rcases List.mem_cons.mp (hh ▸ getLastD_mem_cons' u s.e) with h1 | h1
    · exact hey h1.symm
    · exact hyu h1
  obtain ⟨h2, hrm, hnx, hpv⟩ :=
    removeNode_spec s.heap y (u.getLastD s.e) (v.headD s.e) hp hq hyp
  have hdis : isDisposed s.heap y = false := by
    simp [isDisposed, hq]
  have hrun : listenerDispose s y =
      (some { s with heap := h2 }, [Ev.change (hasListeners h2 s.e)]) := by
    rw [listenerDispose, hdis]
    simp only [Bool.false_eq_true, if_false, hrm]
  have hy2 : h2 y = ⟨none, none⟩ := by
    rw [Node_eta (h2 y), hnx y, hpv y]
    simp
  refine ⟨h2, hrun, ?_, hy2⟩
  have hndres : (s.e :: (u ++ v)).Nodup := by
    rw [List.nodup_cons, List.nodup_append]
    refine ⟨fun hh => hemem ?_, hndu, hndv, fun a ha hb => hdisj ha (List.mem_cons_of_mem y hb)⟩
    rcases List.mem_append.mp hh with h1 | h1
    · exact List.mem_append.mpr (Or.inl h1)
    · exact List.mem_append.mpr (Or.inr (List.mem_cons_of_mem y h1))
  refine ⟨hndres, ?_, ?_, ?_⟩
  · exact chainB_remove s.heap h2 s.e y (u.getLastD s.e) (v.headD s.e) hnx hpv
      (fun hh => hey hh.symm) u s.e v hinv.chain rfl rfl hyu hyv
      hey heu hev (fun hh => (List.nodup_cons.mp hinv.nodup).1
        (List.mem_append.mpr (Or.inl hh)))
      hev
      (by rw [List.nodup_append]; exact ⟨hndu, hndv,
        fun a ha hb => hdisj ha (List.mem_cons_of_mem y hb)⟩)
  · intro z hz
    rw [List.mem_cons, not_or] at hz
    obtain ⟨hze, hzuv⟩ := hz
    show h2 z = (⟨none, none⟩ : Node)
    by_cases hzy : z = y
    · exact hzy ▸ hy2
    · have hzp : z ≠ u.getLastD s.e := by
        intro hh
        rcases List.mem_cons.mp (hh ▸ getLastD_mem_cons' u s.e) with h1 | h1
        · exact hze h1
        · exact hzuv (List.mem_append.mpr (Or.inl h1))
      have hzq : z ≠ v.headD s.e := by
        intro hh
        rcases List.mem_cons.mp (hh ▸ headD_mem_cons v s.e) with h1 | h1
        · exact hze h1
        · exact hzuv (List.mem_append.mpr (Or.inr h1))
      have hzold : z ∉ s.e :: (u ++ y :: v) := by
        rw [List.mem_cons, not_or]
        refine ⟨hze, fun hh => ?_⟩
        rcases List.mem_append.mp hh with h1 | h1
        · exact hzuv (List.mem_append.mpr (Or.inl h1))
        · rcases List.mem_cons.mp h1 with h1 | h1
          · exact hzy h1
          · exact hzuv (List.mem_append.mpr (Or.inr h1))
      rw [Node_eta (h2 z), hnx z, hpv z, if_neg hzy, if_neg hzy, if_neg hzp, if_neg hzq]
      have hoff := hinv.off z hzold
      rw [hoff]
  · intro z hz
    refine hinv.bound z ?_
    rcases List.mem_cons.mp hz with h1 | h1
    · exact h1 ▸ List.mem_cons_self _ _
    · rcases List.mem_append.mp h1 with h1 | h1
      · exact List.mem_cons_of_mem _ (List.mem_append.mpr (Or.inl h1))
      · exact List.mem_cons_of_mem _ (List.mem_append.mpr (Or.inr (List.mem_cons_of_mem y h1)))

theorem addListener_spec (s : EmSt) (ls : List Nat) (cb : CB) (hinv : EmInv s ls) :
    ∃ h2, addListenerCore s cb =
        (some { s with heap := h2, cbs := updF s.cbs s.nextId cb, nextId := s.nextId + 1 },
         [Ev.change true]) ∧
      EmInv { s with heap := h2, cbs := updF s.cbs s.nextId cb, nextId := s.nextId + 1 }
        (ls ++ [s.nextId]) := by
  have hwfresh : s.nextId ∉ s.e :: ls := by
    intro hh
    exact absurd (hinv.bound _ hh) (lt_irrefl _)
  have hwe : s.nextId ≠ s.e := fun hh => hwfresh (hh ▸ List.mem_cons_self _ _)
  have hwls : s.nextId ∉ ls := fun hh => hwfresh (List.mem_cons_of_mem _ hh)
  have hels : s.e ∉ ls := (List.nodup_cons.mp hinv.nodup).1
  have hl := chainB_elast s.heap s.e ls s.e hinv.chain
  have hwl : s.nextId ≠ ls.getLastD s.e := by
    intro hh
    rcases List.mem_cons.mp (hh ▸ getLastD_mem_cons' ls s.e) with h1 | h1
    · exact hwe h1
    · exact hwls h1
  obtain ⟨h2, hins, hnx, hpv⟩ := insertAt_spec s.heap s.e s.nextId (ls.getLastD s.e) hl hwe hwl
  have hchain2 : chainB h2 s.e s.e (ls ++ [s.nextId]) = true :=
    chainB_insert s.heap h2 s.e s.nextId (ls.getLastD s.e) hnx hpv hwe ls s.e hinv.chain rfl
      hwe hwls hels hels (List.nodup_cons.mp hinv.nodup).2
  have hhas : hasListeners h2 s.e = true := by
    have : (h2 s.e).nxt = some ((ls ++ [s.nextId]).headD s.e) := chainB_head h2 s.e s.e _ hchain2
    rw [hasListeners, this]
    have hmem : (ls ++ [s.nextId]).headD s.e ∈ ls ++ [s.nextId] := by
      cases ls <;> simp
    have hne : (ls ++ [s.nextId]).headD s.e ≠ s.e := by
      intro hh
      rcases List.mem_append.mp (hh ▸ hmem) with h1 | h1
      · exact hels h1
      · have h2e : s.e = s.nextId := by simpa using h1
        exact hwe h2e.symm
    simpa using hne
  have hrun : addListenerCore s cb =
      (some { s with heap := h2, cbs := updF s.cbs s.nextId cb, nextId := s.nextId + 1 },
       [Ev.change true]) := by
    rw [addListenerCore]
    simp only [hins, hhas]
  refine ⟨h2, hrun, ?_, hchain2, ?_, ?_⟩
  · rw [show s.e :: (ls ++ [s.nextId]) = (s.e :: ls) ++ [s.nextId] from rfl, List.nodup_append]
    refine ⟨hinv.nodup, List.nodup_singleton _, ?_⟩
    intro a ha hb
    rw [List.mem_singleton] at hb
    exact hwfresh (hb ▸ ha)
  · intro z hz
    rw [List.mem_cons, not_or] at hz
    obtain ⟨hze, hzl⟩ := hz
    have hzw : z ≠ s.nextId := fun hh => hzl (List.mem_append.mpr (Or.inr (by simp [hh])))
    have hzlast : z ≠ ls.getLastD s.e := by
      intro hh
      rcases List.mem_cons.mp (hh ▸ getLastD_mem_cons' ls s.e) with h1 | h1
      · exact hze h1
      · exact hzl (List.mem_append.mpr (Or.inl h1))
    show h2 z = (⟨none, none⟩ : Node)
    rw [Node_eta (h2 z), hnx z, hpv z, if_neg hzw, if_neg hzw, if_neg hzlast, if_neg hze]
    have hzold : z ∉ s.e :: ls := by
      rw [List.mem_cons, not_or]
      exact ⟨hze, fun hh => hzl (List.mem_append.mpr (Or.inl hh))⟩
    rw [hinv.off z hzold]
  · intro z hz
    show z < s.nextId + 1
    rcases List.mem_cons.mp hz with h1 | h1
    · exact lt_trans (hinv.bound z (h1 ▸ List.mem_cons_self _ _)) (Nat.lt_succ_self _)
    · rcases List.mem_append.mp h1 with h1 | h1
      · exact lt_trans (hinv.bound z (List.mem_cons_of_mem _ h1)) (Nat.lt_succ_self _)
      · rw [List.mem_singleton] at h1
        exact h1 ▸ Nat.lt_succ_self _

/-! ### Walking the list during emission -/

theorem ring_ne_e (s : EmSt) (ls : List Nat) (hinv : EmInv s ls) (z : Nat) (hz : z ∈ ls) :
    z ≠ s.e := by
  intro hh
  exact (List.nodup_cons.mp hinv.nodup).1 (hh ▸ hz)

theorem callAll_none_fst (args : List Nat) (fuel : Nat) (s : EmSt) :
    (callAll args fuel s none).1 = none := by
  cases fuel with
  | zero => rfl
  | succ f => simp [callAll]

theorem callAll_stop (args : List Nat) (fuel : Nat) (s : EmSt) (hf : 1 ≤ fuel) :
    callAll args fuel s (some s.e) = (some s, []) := by
  cases fuel with
  | zero => omega
  | succ f => simp [callAll]

theorem inert_runCB (s : EmSt) (r : Nat) (hin : inert s r) :
    runCB s (s.cbs r) = (some s, []) := by
  unfold inert at hin
  rcases hcb : s.cbs r with _ | y | cb
  · rfl
  · simp only [hcb] at hin
    rw [runCB, listenerDispose]
    have hd : isDisposed s.heap y = true := by simp [isDisposed, hin]
    rw [hd]
    simp
  · simp only [hcb] at hin

theorem callAll_inert_seg (args : List Nat) (s : EmSt) :
    ∀ (A P R : List Nat) (fuel : Nat),
      EmInv s (P ++ (A ++ R)) → (∀ r ∈ A, inert s r) →
      callAll args (A.length + fuel) s (some ((A ++ R).headD s.e)) =
        ((callAll args fuel s (some (R.headD s.e))).1,
          A.map (fun r => Ev.call r args) ++ (callAll args fuel s (some (R.headD s.e))).2) := by
  intro A
  induction A with
  | nil =>
    intro P R fuel hinv hA
    simp
  | cons a A2 ih =>
    intro P R fuel hinv hA
    have hmema : a ∈ P ++ (a :: A2 ++ R) := by simp
    have hae : a ≠ s.e := ring_ne_e s _ hinv a hmema
    have hchain : chainB s.heap s.e s.e (P ++ a :: (A2 ++ R)) = true := by
      have := hinv.chain
      simpa using this
    have hstep : (s.heap a).nxt = some ((A2 ++ R).headD s.e) :=
      chainB_nxt_at s.heap s.e a (A2 ++ R) P s.e hchain
    have hinv2 : EmInv s ((P ++ [a]) ++ (A2 ++ R)) := by
      have h1 : (P ++ [a]) ++ (A2 ++ R) = P ++ (a :: A2 ++ R) := by simp
      rw [h1]; exact hinv
    have hrec := ih (P ++ [a]) R fuel hinv2 (fun r hr => hA r (List.mem_cons_of_mem a hr))
    have hlen : (a :: A2).length + fuel = (A2.length + fuel) + 1 := by
      simp [List.length_cons]
      omega
    rw [hlen, List.cons_append, List.headD_cons]
    rw [callAll]
    rw [if_neg (by simp [hae])]
    simp only [inert_runCB s a (hA a (List.mem_cons_self a A2)), hstep, hrec]
    simp

theorem callAll_succ_some (args : List Nat) (f : Nat) (s : EmSt) (r : Nat) (hre : r ≠ s.e)
    (s1 : EmSt) (tr1 : List Ev) (hcb : runCB s (s.cbs r) = (some s1, tr1)) :
    callAll args (f + 1) s (some r) =
      ((callAll args f s1 ((s1.heap r).nxt)).1,
        Ev.call r args :: (tr1 ++ (callAll args f s1 ((s1.heap r).nxt)).2)) := by
  rw [callAll, if_neg (by simp [hre]), hcb]

theorem callAll_succ_err (args : List Nat) (f : Nat) (s : EmSt) (r : Nat) (hre : r ≠ s.e)
    (tr1 : List Ev) (hcb : runCB s (s.cbs r) = (none, tr1)) :
    callAll args (f + 1) s (some r) = (none, Ev.call r args :: tr1) := by
  rw [callAll, if_neg (by simp [hre]), hcb]

theorem callAll_inert_all (args : List Nat) (s : EmSt) (P R : List Nat) (fuel : Nat)
    (hinv : EmInv s (P ++ R)) (hR : ∀ r ∈ R, inert s r) (hfuel : R.length + 1 ≤ fuel) :
    callAll args fuel s (some (R.headD s.e)) = (some s, R.map (fun r => Ev.call r args)) := by
  have hinv2 : EmInv s (P ++ (R ++ [])) := by simpa using hinv
  have hseg := callAll_inert_seg args s R P [] (fuel - R.length) hinv2 hR
  rw [List.append_nil] at hseg
  simp only [List.headD_nil] at hseg
  rw [callAll_stop args (fuel - R.length) s (by omega)] at hseg
  simp only [List.append_nil] at hseg
  have hsplit : R.length + (fuel - R.length) = fuel := by omega
  rw [hsplit] at hseg
  exact hseg

theorem runCB_disposed_noop (s : EmSt) (r y : Nat) (hcb : s.cbs r = CB.disposeL y)
    (hyd : (s.heap y).nxt = none) : runCB s (s.cbs r) = (some s, []) := by
  rw [hcb, runCB, listenerDispose]
  have hd : isDisposed s.heap y = true := by simp [isDisposed, hyd]
  rw [hd]
  simp

theorem EmInv_reassoc (s : EmSt) (P M R : List Nat) (h : EmInv s (P ++ (M ++ R))) :
    EmInv s ((P ++ M) ++ R) := by
  rw [List.append_assoc]
  exact h

theorem callAll_pres (args : List Nat) :
    ∀ (fuel : Nat) (s : EmSt) (P R : List Nat) (s2 : EmSt),
      EmInv s (P ++ R) → legalCbs s →
      (callAll args fuel s (some (R.headD s.e))).1 = some s2 →
      ∃ ls2, EmInv s2 ls2 ∧ legalCbs s2 ∧ s2.e = s.e := by
  intro fuel
  induction fuel with
  | zero =>
    intro s P R s2 hinv hleg hrun
    simp [callAll] at hrun
  | succ f ih =>
    intro s P R s2 hinv hleg hrun
    cases R with
    | nil =>
      rw [List.headD_nil, callAll_stop args (f + 1) s (by omega)] at hrun
      simp only [Option.some.injEq] at hrun
      subst hrun
      exact ⟨P, by simpa using hinv, hleg, rfl⟩
    | cons r R2 =>
      rw [List.headD_cons] at hrun
      have hrmem : r ∈ P ++ r :: R2 := by simp
      have hre : r ≠ s.e := ring_ne_e s _ hinv r hrmem
      cases hcb : s.cbs r with
      | pure =>
        have hrcb : runCB s (s.cbs r) = (some s, []) := by rw [hcb]; rfl
        rw [callAll_succ_some args f s r hre s [] hrcb] at hrun
        dsimp only at hrun
        have hnxt : (s.heap r).nxt = some (R2.headD s.e) :=
          chainB_nxt_at s.heap s.e r R2 P s.e hinv.chain
        rw [hnxt] at hrun
        exact ih s (P ++ [r]) R2 s2 (EmInv_reassoc s P [r] R2 hinv) hleg hrun
      | disposeL y =>
        have hyne : y ≠ s.e := by
          have hl := hleg r
          rw [hcb] at hl
          simpa [CB.legalB] using hl
        by_cases hyd : (s.heap y).nxt = none
        · have hrcb := runCB_disposed_noop s r y hcb hyd
          rw [callAll_succ_some args f s r hre s [] hrcb] at hrun
          dsimp only at hrun
          have hnxt : (s.heap r).nxt = some (R2.headD s.e) :=
            chainB_nxt_at s.heap s.e r R2 P s.e hinv.chain
          rw [hnxt] at hrun
          exact ih s (P ++ [r]) R2 s2 (EmInv_reassoc s P [r] R2 hinv) hleg hrun
        · have hylink : y ∈ s.e :: (P ++ r :: R2) := linked_mem_ring s _ hinv y hyd
          have hymem : y ∈ P ++ r :: R2 := by
            rcases List.mem_cons.mp hylink with h1 | h1
            · exact absurd h1 hyne
            · exact h1
          rcases List.mem_append.mp hymem with hyP | hyRR
          · -- the disposed listener sits in the already-visited part
            obtain ⟨u1, v1, rfl⟩ := List.append_of_mem hyP
            have hinv' : EmInv s (u1 ++ y :: (v1 ++ r :: R2)) := by
              rw [show u1 ++ y :: (v1 ++ r :: R2) = (u1 ++ y :: v1) ++ r :: R2 by simp]
              exact hinv
            obtain ⟨h2, hld, hinv2, hy2⟩ := listenerDispose_spec s u1 (v1 ++ r :: R2) y hinv'
            have hrcb : runCB s (s.cbs r) =
                (some { s with heap := h2 }, [Ev.change (hasListeners h2 s.e)]) := by
              rw [hcb, runCB]; exact hld
            rw [callAll_succ_some args f s r hre _ _ hrcb] at hrun
            dsimp only at hrun
            have hinv2b : EmInv { s with heap := h2 } (((u1 ++ v1) ++ [r]) ++ R2) := by
              rw [show ((u1 ++ v1) ++ [r]) ++ R2 = u1 ++ (v1 ++ r :: R2) by simp]
              exact hinv2
            have hchain2 : chainB h2 s.e s.e ((u1 ++ v1) ++ r :: R2) = true := by
              have hc := hinv2.chain
              simpa using hc
            have hnxt : (h2 r).nxt = some (R2.headD s.e) :=
              chainB_nxt_at h2 s.e r R2 (u1 ++ v1) s.e hchain2
            rw [hnxt] at hrun
            exact ih { s with heap := h2 } ((u1 ++ v1) ++ [r]) R2 s2 hinv2b hleg hrun
          · rcases List.mem_cons.mp hyRR with hyr | hyR2
            · -- self-disposal: the walk falls off a nulled link, contradiction
              subst hyr
              obtain ⟨h2, hld, hinv2, hy2⟩ := listenerDispose_spec s P R2 y hinv
              have hrcb : runCB s (s.cbs y) =
                  (some { s with heap := h2 }, [Ev.change (hasListeners h2 s.e)]) := by
                rw [hcb, runCB]; exact hld
              rw [callAll_succ_some args f s y hre _ _ hrcb] at hrun
              dsimp only at hrun
              have hy2n : (h2 y).nxt = none := by rw [hy2]
              rw [hy2n, callAll_none_fst] at hrun
              exact absurd hrun (by simp)
            · -- the disposed listener is later in the walk
              obtain ⟨u2, v2, rfl⟩ := List.append_of_mem hyR2
              have hinv' : EmInv s ((P ++ r :: u2) ++ y :: v2) := by
                rw [show (P ++ r :: u2) ++ y :: v2 = P ++ r :: (u2 ++ y :: v2) by simp]
                exact hinv
              obtain ⟨h2, hld, hinv2, hy2⟩ := listenerDispose_spec s (P ++ r :: u2) v2 y hinv'
              have hrcb : runCB s (s.cbs r) =
                  (some { s with heap := h2 }, [Ev.change (hasListeners h2 s.e)]) := by
                rw [hcb, runCB]; exact hld
              rw [callAll_succ_some args f s r hre _ _ hrcb] at hrun
              dsimp only at hrun
              have hinv2b : EmInv { s with heap := h2 } ((P ++ [r]) ++ (u2 ++ v2)) := by
                rw [show (P ++ [r]) ++ (u2 ++ v2) = (P ++ r :: u2) ++ v2 by simp]
                exact hinv2
              have hchain2 : chainB h2 s.e s.e (P ++ r :: (u2 ++ v2)) = true := by
                have hc := hinv2.chain
                simpa using hc
              have hnxt : (h2 r).nxt = some ((u2 ++ v2).headD s.e) :=
                chainB_nxt_at h2 s.e r (u2 ++ v2) P s.e hchain2
              rw [hnxt] at hrun
              exact ih { s with heap := h2 } (P ++ [r]) (u2 ++ v2) s2 hinv2b hleg hrun
      | addL cb2 =>
        obtain ⟨h2, hadd, hinv2⟩ := addListener_spec s (P ++ r :: R2) cb2 hinv
        have hrcb : runCB s (s.cbs r) =
            (some { s with heap := h2, cbs := updF s.cbs s.nextId cb2, nextId := s.nextId + 1 },
             [Ev.change true]) := by
          rw [hcb, runCB]; exact hadd
        rw [callAll_succ_some args f s r hre _ _ hrcb] at hrun
        dsimp only at hrun
        have hinv2b : EmInv
            { s with heap := h2, cbs := updF s.cbs s.nextId cb2, nextId := s.nextId + 1 }
            ((P ++ [r]) ++ (R2 ++ [s.nextId])) := by
          rw [show (P ++ [r]) ++ (R2 ++ [s.nextId]) = (P ++ r :: R2) ++ [s.nextId] by simp]
          exact hinv2
        have hchain2 : chainB h2 s.e s.e (P ++ r :: (R2 ++ [s.nextId])) = true := by
          have hc := hinv2.chain
          simpa using hc
        have hnxt : (h2 r).nxt = some ((R2 ++ [s.nextId]).headD s.e) :=
          chainB_nxt_at h2 s.e r (R2 ++ [s.nextId]) P s.e hchain2
        rw [hnxt] at hrun
        have hleg2 : legalCbs
            { s with heap := h2, cbs := updF s.cbs s.nextId cb2, nextId := s.nextId + 1 } := by
          intro x
          dsimp only
          rw [updF]
          by_cases hx : x = s.nextId
          · rw [if_pos hx]
            have hl := hleg r
            rw [hcb] at hl
            simpa [CB.legalB] using hl
          · rw [if_neg hx]
            exact hleg x
        exact ih { s with heap := h2, cbs := updF s.cbs s.nextId cb2, nextId := s.nextId + 1 }
          (P ++ [r]) (R2 ++ [s.nextId]) s2 hinv2b hleg2 hrun

/-! ### Preservation across top-level operations -/

theorem runOp_pres (s : EmSt) (ls : List Nat) (op : Op) (s2 : EmSt) (tr : List Ev)
    (hinv : EmInv s ls) (hleg : legalCbs s) (hlegop : Op.legalB s.e op = true)
    (hnd : op.isDisposeE = false) (hrun : runOp s op = (some s2, tr)) :
    ∃ ls2, EmInv s2 ls2 ∧ legalCbs s2 ∧ s2.e = s.e := by
  cases op with
  | add cb =>
    obtain ⟨h2, hadd, hinv2⟩ := addListener_spec s ls cb hinv
    rw [runOp, hadd] at hrun
    simp only [Prod.mk.injEq, Option.some.injEq] at hrun
    obtain ⟨hs2, -⟩ := hrun
    subst hs2
    refine ⟨ls ++ [s.nextId], hinv2, ?_, rfl⟩
    intro x
    dsimp only
    rw [updF]
    by_cases hx : x = s.nextId
    · rw [if_pos hx]
      have hl := hlegop
      simpa [Op.legalB] using hl
    · rw [if_neg hx]
      exact hleg x
  | disposeL y =>
    have hyne : y ≠ s.e := by simpa [Op.legalB] using hlegop
    by_cases hyd : (s.heap y).nxt = none
    · have : listenerDispose s y = (some s, []) := by
        rw [listenerDispose]
        have hd : isDisposed s.heap y = true := by simp [isDisposed, hyd]
        rw [hd]
        simp
      rw [runOp, this] at hrun
      simp only [Prod.mk.injEq, Option.some.injEq] at hrun
      exact ⟨ls, hrun.1 ▸ hinv, hrun.1 ▸ hleg, hrun.1 ▸ rfl⟩
    · have hylink : y ∈ s.e :: ls := linked_mem_ring s ls hinv y hyd
      have hymem : y ∈ ls := by
        rcases List.mem_cons.mp hylink with h1 | h1
        · exact absurd h1 hyne
        · exact h1
      obtain ⟨u, v, rfl⟩ := List.append_of_mem hymem
      obtain ⟨h2, hld, hinv2, hy2⟩ := listenerDispose_spec s u v y hinv
      rw [runOp, hld] at hrun
      simp only [Prod.mk.injEq, Option.some.injEq] at hrun
      exact ⟨u ++ v, hrun.1 ▸ hinv2, hrun.1 ▸ hleg, hrun.1 ▸ rfl⟩
  | emit fuel args =>
    have hbegin : (s.heap s.e).nxt = some (ls.headD s.e) :=
      chainB_head s.heap s.e s.e ls hinv.chain
    rw [runOp, emit, hbegin] at hrun
    have hr1 : (callAll args fuel s (some (ls.headD s.e))).1 = some s2 := by
      rw [hrun]
    exact callAll_pres args fuel s [] ls s2 (by simpa using hinv) hleg hr1
  | disposeE f =>
    simp [Op.isDisposeE] at hnd

theorem runOps_pres (ops : List Op) :
    ∀ (s : EmSt) (ls : List Nat) (s2 : EmSt) (tr : List Ev),
      EmInv s ls → legalCbs s →
      (∀ op ∈ ops, Op.legalB s.e op = true ∧ op.isDisposeE = false) →
      runOps s ops = (some s2, tr) →
      ∃ ls2, EmInv s2 ls2 ∧ legalCbs s2 ∧ s2.e = s.e := by
  induction ops with
  | nil =>
    intro s ls s2 tr hinv hleg _ hrun
    rw [runOps] at hrun
    simp only [Prod.mk.injEq, Option.some.injEq] at hrun
    exact ⟨ls, hrun.1 ▸ hinv, hrun.1 ▸ hleg, hrun.1 ▸ rfl⟩
  | cons op ops ih =>
    intro s ls s2 tr hinv hleg hlegops hrun
    rw [runOps] at hrun
    rcases hop : runOp s op with ⟨r1, tr1⟩
    rw [hop] at hrun
    cases r1 with
    | none => simp at hrun
    | some s1 =>
      dsimp only at hrun
      rcases hop2 : runOps s1 ops with ⟨res, tr2⟩
      rw [hop2] at hrun
      dsimp only at hrun
      simp only [Prod.mk.injEq] at hrun
      obtain ⟨hres, -⟩ := hrun
      obtain ⟨ls1, hinv1, hleg1, he1⟩ := runOp_pres s ls op s1 tr1 hinv hleg
        (hlegops op (List.mem_cons_self op ops)).1
        (hlegops op (List.mem_cons_self op ops)).2 hop
      have hlegops1 : ∀ op2 ∈ ops, Op.legalB s1.e op2 = true ∧ op2.isDisposeE = false := by
        intro op2 hop2mem
        rw [he1]
        exact hlegops op2 (List.mem_cons_of_mem op hop2mem)
      obtain ⟨ls2x, hinv2, hleg2, he2⟩ := ih s1 ls1 s2 tr2 hinv1 hleg1 hlegops1
        (by rw [hop2, hres])
      exact ⟨ls2x, hinv2, hleg2, he2.trans he1⟩

/-! ### The dispose-list loop -/

/-- The `_next`-pointer path from `a` through `ls`, ending at `t` (prev-pointers ignored:
this is exactly what `_disposeList`'s walk follows). -/
def nextSeqB (h : Heap) : Nat → List Nat → Nat → Bool
  | a, [], t => (h a).nxt == some t
  | a, x :: xs, t => ((h a).nxt == some x) && nextSeqB h x xs t

theorem chainB_to_nextSeqB (h : Heap) (e : Nat) :
    ∀ (ls : List Nat) (a : Nat), chainB h e a ls = true → nextSeqB h a ls e = true := by
  intro ls
  induction ls with
  | nil =>
    intro a hc
    rw [chainB_nil_iff] at hc
    simp [nextSeqB, hc.1]
  | cons x xs ih =>
    intro a hc
    rw [chainB_cons_iff] at hc
    simp [nextSeqB, hc.1, ih x hc.2.2]

theorem nextSeqB_congr (h h2 : Heap) (t : Nat) :
    ∀ (ls : List Nat) (a : Nat),
      (∀ z ∈ a :: ls, (h2 z).nxt = (h z).nxt) →
      nextSeqB h a ls t = true → nextSeqB h2 a ls t = true := by
  intro ls
  induction ls with
  | nil =>
    intro a hagree hs
    rw [nextSeqB] at hs ⊢
    rw [hagree a (by simp)]
    exact hs
  | cons x xs ih =>
    intro a hagree hs
    rw [nextSeqB, Bool.and_eq_true] at hs ⊢
    refine ⟨?_, ih x (fun z hz => hagree z (List.mem_cons_of_mem a hz)) hs.2⟩
    rw [hagree a (by simp)]
    exact hs.1

theorem disposeLoop_go :
    ∀ (ls : List Nat) (h : Heap) (a t : Nat) (fuel : Nat),
      nextSeqB h a ls t = true → (a :: ls).Nodup →
      (t = a ∨ (h t).nxt = none) → ls.length + 2 ≤ fuel →
      ∃ h2, disposeLoop fuel h a = some h2 ∧
        (∀ z ∈ a :: ls, h2 z = ⟨none, none⟩) ∧
        (∀ z, z ∉ a :: ls → h2 z = h z) := by
  intro ls
  induction ls with
  | nil =>
    intro h a t fuel hseq hnd ht hfuel
    rw [nextSeqB, beq_iff_eq] at hseq
    match fuel, hfuel with
    | f + 2, _ =>
      have hstep : disposeLoop (f + 2) h a =
          disposeLoop (f + 1) (setPrv (setNxt h a none) a none) t := by
        rw [disposeLoop, hseq]
      have hlink : ((setPrv (setNxt h a none) a none) t).nxt = none := by
        rcases ht with rfl | htn
        · rw [setPrv_nxt, setNxt_nxt, if_pos rfl]
        · by_cases hta : t = a
          · rw [setPrv_nxt, setNxt_nxt, if_pos hta]
          · rw [setPrv_nxt, setNxt_nxt, if_neg hta]
            exact htn
      have hdone : disposeLoop (f + 1) (setPrv (setNxt h a none) a none) t =
          some (setPrv (setNxt h a none) a none) := by
        rw [disposeLoop, hlink]
      refine ⟨setPrv (setNxt h a none) a none, hstep.trans hdone, ?_, ?_⟩
      · intro z hz
        rw [List.mem_singleton] at hz
        subst hz
        rw [Node_eta ((setPrv (setNxt h z none) z none) z), setPrv_nxt, setNxt_nxt,
          setPrv_prv, if_pos rfl, if_pos rfl]
      · intro z hz
        rw [List.mem_singleton] at hz
        rw [Node_eta ((setPrv (setNxt h a none) a none) z), setPrv_nxt, setNxt_nxt,
          setPrv_prv, if_neg hz, if_neg hz, setNxt_prv]
  | cons x xs ih =>
    intro h a t fuel hseq hnd ht hfuel
    rw [nextSeqB, Bool.and_eq_true, beq_iff_eq] at hseq
    obtain ⟨hax, hseq2⟩ := hseq
    have hanotin : a ∉ x :: xs := (List.nodup_cons.mp hnd).1
    match fuel, hfuel with
    | f + 1, hfuel =>
      have hstep : disposeLoop (f + 1) h a =
          disposeLoop f (setPrv (setNxt h a none) a none) x := by
        rw [disposeLoop, hax]
      have hagree : ∀ z ∈ x :: xs, ((setPrv (setNxt h a none) a none) z).nxt = (h z).nxt := by
        intro z hz
        have hza : z ≠ a := fun hh => hanotin (hh ▸ hz)
        rw [setPrv_nxt, setNxt_nxt, if_neg hza]
      have hseq3 : nextSeqB (setPrv (setNxt h a none) a none) x xs t = true :=
        nextSeqB_congr h (setPrv (setNxt h a none) a none) t xs x hagree hseq2
      have ht3 : t = x ∨ ((setPrv (setNxt h a none) a none) t).nxt = none := by
        right
        by_cases hta : t = a
        · rw [setPrv_nxt, setNxt_nxt, if_pos hta]
        · rw [setPrv_nxt, setNxt_nxt, if_neg hta]
          rcases ht with rfl | htn
          · exact absurd rfl hta
          · exact htn
      obtain ⟨h2, hrest, hin, hout⟩ := ih (setPrv (setNxt h a none) a none) x t f hseq3
        (List.nodup_cons.mp hnd).2 ht3 (by simp at hfuel ⊢; omega)
      refine ⟨h2, hstep.trans hrest, ?_, ?_⟩
      · intro z hz
        rcases List.mem_cons.mp hz with rfl | hz2
        · rw [hout z hanotin, Node_eta ((setPrv (setNxt h z none) z none) z), setPrv_nxt,
            setNxt_nxt, setPrv_prv, if_pos rfl, if_pos rfl]
        · exact hin z hz2
      · intro z hz
        have hza : z ≠ a := fun hh => hz (hh ▸ List.mem_cons_self a (x :: xs))
        have hzxs : z ∉ x :: xs := fun hh => hz (List.mem_cons_of_mem a hh)
        rw [hout z hzxs, Node_eta ((setPrv (setNxt h a none) a none) z), setPrv_nxt,
          setNxt_nxt, setPrv_prv, if_neg hza, if_neg hza, setNxt_prv]

theorem emitterDispose_spec (s : EmSt) (ls : List Nat) (fuel : Nat) (hinv : EmInv s ls)
    (hfuel : ls.length + 2 ≤ fuel) :
    ∃ h2, emitterDispose s fuel = some { s with heap := h2, changeCB := false } ∧
      (∀ z ∈ s.e :: ls, h2 z = ⟨none, none⟩) ∧
      (∀ z, z ∉ s.e :: ls → h2 z = s.heap z) := by
  obtain ⟨h2, hdl, hin, hout⟩ := disposeLoop_go ls s.heap s.e s.e fuel
    (chainB_to_nextSeqB s.heap s.e ls s.e hinv.chain) hinv.nodup (Or.inl rfl) hfuel
  refine ⟨h2, ?_, hin, hout⟩
  rw [emitterDispose, hdl]

/-! ### Building an emitter by registering listeners -/

theorem EmInv_mkEmitter : EmInv mkEmitter [] := by
  refine ⟨by simp, rfl, ?_, ?_⟩
  · intro z hz
    rw [List.mem_singleton] at hz
    have hz0 : z ≠ 0 := hz
    show (setPrv (setNxt (fun _ => ⟨none, none⟩) 0 (some 0)) 0 (some 0)) z = ⟨none, none⟩
    simp [setPrv, setNxt, hz0]
  · intro z hz
    rw [List.mem_singleton] at hz
    have hz0 : z = 0 := hz
    subst hz0
    show (0 : Nat) < 1
    omega

theorem legalCbs_mkEmitter : legalCbs mkEmitter := fun _ => rfl

theorem runOps_append_some (l1 : List Op) :
    ∀ (s s1 : EmSt) (tr1 : List Ev) (l2 : List Op),
      runOps s l1 = (some s1, tr1) →
      runOps s (l1 ++ l2) = ((runOps s1 l2).1, tr1 ++ (runOps s1 l2).2) := by
  induction l1 with
  | nil =>
    intro s s1 tr1 l2 h
    rw [runOps] at h
    simp only [Prod.mk.injEq, Option.some.injEq] at h
    obtain ⟨rfl, rfl⟩ := h
    simp
  | cons op l1 ih =>
    intro s s1 tr1 l2 h
    rcases hop : runOp s op with ⟨r1, tra⟩
    rw [runOps, hop] at h
    cases r1 with
    | none => simp at h
    | some sa =>
      dsimp only at h
      rcases h2 : runOps sa l1 with ⟨res, trb⟩
      rw [h2] at h
      dsimp only at h
      simp only [Prod.mk.injEq] at h
      obtain ⟨hres, htr⟩ := h
      rw [List.cons_append, runOps, hop]
      dsimp only
      rw [ih sa s1 trb l2 (by rw [h2, hres]), ← htr]
      simp

theorem buildPure : ∀ (n : Nat),
    ∃ s, runOps mkEmitter (List.replicate n (Op.add CB.pure)) =
        (some s, List.replicate n (Ev.change true)) ∧
      EmInv s (List.range' 1 n) ∧ (∀ x, s.cbs x = CB.pure) ∧ s.e = 0 ∧ s.nextId = n + 1 := by
  intro n
  induction n with
  | zero => exact ⟨mkEmitter, rfl, EmInv_mkEmitter, fun x => rfl, rfl, rfl⟩
  | succ n ih =>
    obtain ⟨s, hrun, hinv, hcbs, he, hid⟩ := ih
    obtain ⟨h2, hadd, hinv2⟩ := addListener_spec s (List.range' 1 n) CB.pure hinv
    have hsingle : runOps s [Op.add CB.pure] =
        (some { s with heap := h2, cbs := updF s.cbs s.nextId CB.pure, nextId := s.nextId + 1 },
         [Ev.change true]) := by
      rw [runOps, show runOp s (Op.add CB.pure) = addListenerCore s CB.pure from rfl, hadd]
      dsimp only [runOps]
      simp
    refine ⟨{ s with heap := h2, cbs := updF s.cbs s.nextId CB.pure, nextId := s.nextId + 1 },
      ?_, ?_, ?_, ?_, ?_⟩
    · rw [List.replicate_succ' n (Op.add CB.pure),
        runOps_append_some _ mkEmitter s _ [Op.add CB.pure] hrun, hsingle]
      rw [List.replicate_succ' n (Ev.change true)]
    · have hrange : List.range' 1 (n + 1) = List.range' 1 n ++ [s.nextId] := by
        rw [List.range'_concat]
        rw [hid]
        simp
        omega
      rw [hrange]
      exact hinv2
    · intro x
      dsimp only
      rw [updF]
      by_cases hx : x = s.nextId
      · rw [if_pos hx]
      · rw [if_neg hx]
        exact hcbs x
    · exact he
    · show s.nextId + 1 = n + 1 + 1
      rw [hid]

/-! ### Emission scenarios -/

theorem pure_inert (s : EmSt) (r : Nat) (h : s.cbs r = CB.pure) : inert s r := by
  unfold inert
  rw [h]
  trivial

theorem callAll_none_eq (args : List Nat) (fuel : Nat) (s : EmSt) :
    callAll args fuel s none = (none, []) := by
  cases fuel with
  | zero => rfl
  | succ f => simp [callAll]

theorem emit_inert_exact (s : EmSt) (ls : List Nat) (args : List Nat) (fuel : Nat)
    (hinv : EmInv s ls) (hin : ∀ r ∈ ls, inert s r) (hfuel : ls.length + 1 ≤ fuel) :
    emit s fuel args = (some s, ls.map (fun r => Ev.call r args)) := by
  rw [emit, chainB_head s.heap s.e s.e ls hinv.chain]
  exact callAll_inert_all args s [] ls fuel (by simpa using hinv) hin hfuel

theorem emit_dispose_run (s : EmSt) (pre mid post : List Nat) (x y : Nat)
    (args : List Nat) (fuel : Nat)
    (hinv : EmInv s (pre ++ x :: (mid ++ y :: post)))
    (hx : s.cbs x = CB.disposeL y)
    (hpure : ∀ r ∈ pre ++ mid ++ post, s.cbs r = CB.pure)
    (hfuel : pre.length + (mid.length + post.length) + 2 ≤ fuel) :
    ∃ s1, emit s fuel args =
        (some s1, pre.map (fun r => Ev.call r args) ++
          Ev.call x args :: Ev.change true :: (mid ++ post).map (fun r => Ev.call r args)) ∧
      EmInv s1 (pre ++ x :: (mid ++ post)) ∧ s1.e = s.e ∧ s1.cbs = s.cbs ∧
      (s1.heap y).nxt = none := by
  have hxe : x ≠ s.e := ring_ne_e s _ hinv x (by simp)
  have hbegin : (s.heap s.e).nxt = some ((pre ++ x :: (mid ++ y :: post)).headD s.e) :=
    chainB_head s.heap s.e s.e _ hinv.chain
  have hinvu : EmInv s ((pre ++ x :: mid) ++ y :: post) := by
    rw [show (pre ++ x :: mid) ++ y :: post = pre ++ x :: (mid ++ y :: post) by simp]
    exact hinv
  obtain ⟨h2, hld, hinv2, hy2⟩ := listenerDispose_spec s (pre ++ x :: mid) post y hinvu
  have hrcbx : runCB s (s.cbs x) =
      (some { s with heap := h2 }, [Ev.change (hasListeners h2 s.e)]) := by
    rw [hx, runCB]
    exact hld
  have hinv2b : EmInv { s with heap := h2 } (pre ++ x :: (mid ++ post)) := by
    rw [show pre ++ x :: (mid ++ post) = (pre ++ x :: mid) ++ post by simp]
    exact hinv2
  have hchange : hasListeners h2 s.e = true := by
    have hh := EmInv_hasListeners _ _ hinv2b
    rw [show ({ s with heap := h2 } : EmSt).heap = h2 from rfl,
      show ({ s with heap := h2 } : EmSt).e = s.e from rfl] at hh
    rw [hh]
    simp
  have hnxt2 : (h2 x).nxt = some ((mid ++ post).headD s.e) :=
    chainB_nxt_at h2 s.e x (mid ++ post) pre s.e hinv2b.chain
  have htail : callAll args (fuel - pre.length - 1) { s with heap := h2 }
      (some ((mid ++ post).headD s.e)) =
      (some { s with heap := h2 }, (mid ++ post).map (fun r => Ev.call r args)) := by
    apply callAll_inert_all args { s with heap := h2 } (pre ++ [x]) (mid ++ post)
    · rw [show (pre ++ [x]) ++ (mid ++ post) = pre ++ x :: (mid ++ post) by simp]
      exact hinv2b
    · intro r hr
      apply pure_inert
      show s.cbs r = CB.pure
      apply hpure
      rcases List.mem_append.mp hr with h1 | h1
      · exact List.mem_append.mpr (Or.inl (List.mem_append.mpr (Or.inr h1)))
      · exact List.mem_append.mpr (Or.inr h1)
    · rw [List.length_append]
      omega
  have hxstep : callAll args (fuel - pre.length) s (some x) =
      (some { s with heap := h2 },
        Ev.call x args :: ([Ev.change (hasListeners h2 s.e)] ++
          (mid ++ post).map (fun r => Ev.call r args))) := by
    have hfp : fuel - pre.length = (fuel - pre.length - 1) + 1 := by omega
    rw [hfp, callAll_succ_some args (fuel - pre.length - 1) s x hxe _ _ hrcbx]
    dsimp only
    rw [hnxt2, htail]
  have hseg := callAll_inert_seg args s pre [] (x :: (mid ++ y :: post)) (fuel - pre.length)
    (by simpa using hinv)
    (fun r hr => pure_inert s r (hpure r (List.mem_append.mpr
      (Or.inl (List.mem_append.mpr (Or.inl hr))))))
  rw [List.headD_cons, hxstep] at hseg
  dsimp only at hseg
  refine ⟨{ s with heap := h2 }, ?_, hinv2b, rfl, rfl, ?_⟩
  · rw [emit, hbegin]
    have hfq : fuel = pre.length + (fuel - pre.length) := by omega
    rw [hfq, hseg, hchange]
    simp
  · show (h2 y).nxt = none
    rw [hy2]

theorem emit_self_dispose_run (s : EmSt) (pre post : List Nat) (x : Nat)
    (args : List Nat) (fuel : Nat)
    (hinv : EmInv s (pre ++ x :: post))
    (hx : s.cbs x = CB.disposeL x)
    (hpure : ∀ r ∈ pre, s.cbs r = CB.pure)
    (hfuel : pre.length + 2 ≤ fuel) :
    emit s fuel args = (none, pre.map (fun r => Ev.call r args) ++
      [Ev.call x args, Ev.change (!(pre ++ post).isEmpty)]) := by
  have hxe : x ≠ s.e := ring_ne_e s _ hinv x (by simp)
  have hbegin := chainB_head s.heap s.e s.e _ hinv.chain
  obtain ⟨h2, hld, hinv2, hy2⟩ := listenerDispose_spec s pre post x hinv
  have hrcbx : runCB s (s.cbs x) =
      (some { s with heap := h2 }, [Ev.change (hasListeners h2 s.e)]) := by
    rw [hx, runCB]
    exact hld
  have hchange : hasListeners h2 s.e = !(pre ++ post).isEmpty :=
    EmInv_hasListeners _ _ hinv2
  have hxstep : callAll args (fuel - pre.length) s (some x) =
      (none, Ev.call x args :: ([Ev.change (hasListeners h2 s.e)] ++ [])) := by
    have hfp : fuel - pre.length = (fuel - pre.length - 1) + 1 := by omega
    rw [hfp, callAll_succ_some args (fuel - pre.length - 1) s x hxe _ _ hrcbx]
    dsimp only
    rw [show (h2 x).nxt = none by rw [hy2], callAll_none_eq]
  have hseg := callAll_inert_seg args s pre [] (x :: post) (fuel - pre.length)
    (by simpa using hinv) (fun r hr => pure_inert s r (hpure r hr))
  rw [List.headD_cons, hxstep] at hseg
  dsimp only at hseg
  rw [emit, hbegin]
  have hfq : fuel = pre.length + (fuel - pre.length) := by omega
  rw [hfq, hseg, hchange]
  simp

theorem emit_mid_add_run (s : EmSt) (pre post : List Nat) (x : Nat)
    (args : List Nat) (fuel : Nat)
    (hinv : EmInv s (pre ++ x :: post))
    (hx : s.cbs x = CB.addL CB.pure)
    (hpure : ∀ r ∈ pre ++ post, s.cbs r = CB.pure)
    (hfuel : pre.length + post.length + 3 ≤ fuel) :
    (emit s fuel args).1.isSome = true ∧
    (emit s fuel args).2 = pre.map (fun r => Ev.call r args) ++
      Ev.call x args :: Ev.change true ::
        (post ++ [s.nextId]).map (fun r => Ev.call r args) := by
  have hxe : x ≠ s.e := ring_ne_e s _ hinv x (by simp)
  have hbegin := chainB_head s.heap s.e s.e _ hinv.chain
  obtain ⟨h2, hadd, hinv2⟩ := addListener_spec s (pre ++ x :: post) CB.pure hinv
  have hrcbx : runCB s (s.cbs x) =
      (some { s with heap := h2, cbs := updF s.cbs s.nextId CB.pure, nextId := s.nextId + 1 },
       [Ev.change true]) := by
    rw [hx, runCB]
    exact hadd
  have hinv2b : EmInv
      { s with heap := h2, cbs := updF s.cbs s.nextId CB.pure, nextId := s.nextId + 1 }
      (pre ++ x :: (post ++ [s.nextId])) := by
    rw [show pre ++ x :: (post ++ [s.nextId]) = (pre ++ x :: post) ++ [s.nextId] by simp]
    exact hinv2
  have hnxt2 : (h2 x).nxt = some ((post ++ [s.nextId]).headD s.e) :=
    chainB_nxt_at h2 s.e x (post ++ [s.nextId]) pre s.e hinv2b.chain
  have htail : callAll args (fuel - pre.length - 1)
      { s with heap := h2, cbs := updF s.cbs s.nextId CB.pure, nextId := s.nextId + 1 }
      (some ((post ++ [s.nextId]).headD s.e)) =
      (some { s with heap := h2, cbs := updF s.cbs s.nextId CB.pure, nextId := s.nextId + 1 },
       (post ++ [s.nextId]).map (fun r => Ev.call r args)) := by
    apply callAll_inert_all args _ (pre ++ [x]) (post ++ [s.nextId])
    · rw [show (pre ++ [x]) ++ (post ++ [s.nextId]) = pre ++ x :: (post ++ [s.nextId]) by simp]
      exact hinv2b
    · intro r hr
      apply pure_inert
      show updF s.cbs s.nextId CB.pure r = CB.pure
      rw [updF]
      by_cases hrw : r = s.nextId
      · rw [if_pos hrw]
      · rw [if_neg hrw]
        rcases List.mem_append.mp hr with h1 | h1
        · exact hpure r (List.mem_append.mpr (Or.inr h1))
        · exact absurd (by simpa using h1) hrw
    · rw [List.length_append]
      simp
      omega
  have hxstep : callAll args (fuel - pre.length) s (some x) =
      (some { s with heap := h2, cbs := updF s.cbs s.nextId CB.pure, nextId := s.nextId + 1 },
        Ev.call x args :: ([Ev.change true] ++
          (post ++ [s.nextId]).map (fun r => Ev.call r args))) := by
    have hfp : fuel - pre.length = (fuel - pre.length - 1) + 1 := by omega
    rw [hfp, callAll_succ_some args (fuel - pre.length - 1) s x hxe _ _ hrcbx]
    dsimp only
    rw [hnxt2, htail]
  have hseg := callAll_inert_seg args s pre [] (x :: post) (fuel - pre.length)
    (by simpa using hinv)
    (fun r hr => pure_inert s r (hpure r (List.mem_append.mpr (Or.inl hr))))
  rw [List.headD_cons, hxstep] at hseg
  dsimp only at hseg
  have hemit : emit s fuel args =
      (some { s with heap := h2, cbs := updF s.cbs s.nextId CB.pure, nextId := s.nextId + 1 },
        pre.map (fun r => Ev.call r args) ++
          Ev.call x args :: Ev.change true ::
            (post ++ [s.nextId]).map (fun r => Ev.call r args)) := by
    rw [emit, hbegin]
    have hfq : fuel = pre.length + (fuel - pre.length) := by omega
    rw [hfq, hseg]
    simp
  rw [hemit]
  exact ⟨rfl, rfl⟩

/-! ### Concrete states used by witnesses and counterexamples -/

/-- Sentinel 0 with listeners 1, 2 registered in that order, all callbacks pure. -/
def sEx : EmSt :=
  { e := 0
    heap := fun z => if z = 0 then ⟨some 1, some 2⟩ else if z = 1 then ⟨some 2, some 0⟩
      else if z = 2 then ⟨some 0, some 1⟩ else ⟨none, none⟩
    cbs := fun _ => CB.pure
    changeCB := false
    nextId := 3 }

theorem sEx_inv : EmInv sEx [1, 2] := by
  refine ⟨by decide, by decide, ?_, by decide⟩
  intro z hz
  simp only [List.mem_cons, not_or] at hz
  obtain ⟨h0, h1, h2⟩ := hz
  have h0' : z ≠ 0 := h0
  show sEx.heap z = ⟨none, none⟩
  simp [sEx, h0', h1, h2]

/-- Sentinel 0 with listeners 1, 2, 3; listener 2's callback disposes listener 3. -/
def sC2 : EmSt :=
  { e := 0
    heap := fun z => if z = 0 then ⟨some 1, some 3⟩ else if z = 1 then ⟨some 2, some 0⟩
      else if z = 2 then ⟨some 3, some 1⟩ else if z = 3 then ⟨some 0, some 2⟩
      else ⟨none, none⟩
    cbs := fun z => if z = 2 then CB.disposeL 3 else CB.pure
    changeCB := false
    nextId := 4 }

theorem sC2_inv : EmInv sC2 [1, 2, 3] := by
  refine ⟨by decide, by decide, ?_, by decide⟩
  intro z hz
  simp only [List.mem_cons, not_or] at hz
  obtain ⟨h0, h1, h2, h3⟩ := hz
  have h0' : z ≠ 0 := h0
  show sC2.heap z = ⟨none, none⟩
  simp [sC2, h0', h1, h2, h3]

/-- Sentinel 0 with listeners 1, 2; listener 1's callback disposes listener 1 itself. -/
def sC3 : EmSt :=
  { e := 0
    heap := fun z => if z = 0 then ⟨some 1, some 2⟩ else if z = 1 then ⟨some 2, some 0⟩
      else if z = 2 then ⟨some 0, some 1⟩ else ⟨none, none⟩
    cbs := fun z => if z = 1 then CB.disposeL 1 else CB.pure
    changeCB := false
    nextId := 3 }

theorem sC3_inv : EmInv sC3 [1, 2] := by
  refine ⟨by decide, by decide, ?_, by decide⟩
  intro z hz
  simp only [List.mem_cons, not_or] at hz
  obtain ⟨h0, h1, h2⟩ := hz
  have h0' : z ≠ 0 := h0
  show sC3.heap z = ⟨none, none⟩
  simp [sC3, h0', h1, h2]

/-- Sentinel 0 with listeners 1, 2; listener 1's callback adds a fresh pure listener. -/
def sC4 : EmSt :=
  { e := 0
    heap := fun z => if z = 0 then ⟨some 1, some 2⟩ else if z = 1 then ⟨some 2, some 0⟩
      else if z = 2 then ⟨some 0, some 1⟩ else ⟨none, none⟩
    cbs := fun z => if z = 1 then CB.addL CB.pure else CB.pure
    changeCB := false
    nextId := 3 }

theorem sC4_inv : EmInv sC4 [1, 2] := by
  refine ⟨by decide, by decide, ?_, by decide⟩
  intro z hz
  simp only [List.mem_cons, not_or] at hz
  obtain ⟨h0, h1, h2⟩ := hz
  have h0' : z ≠ 0 := h0
  show sC4.heap z = ⟨none, none⟩
  simp [sC4, h0', h1, h2]

/-! ### Claim C1 -/

/-- C1 (confirmed): for every emitter whose listener list is not modified during the
emission (all linked callbacks are no-ops), `emit(args)` invokes each currently-linked
listener exactly once, in ring order, passing `args` to each, and returns normally with
the state unchanged.  The second conjunct ties the ring order to registration (FIFO)
order: after registering `n` listeners on a fresh emitter, one emission invokes them as
`1, …, n` — their registration order. -/
theorem emit_fifo :
    (∀ (s : EmSt) (ls args : List Nat) (fuel : Nat),
      EmInv s ls → (∀ r ∈ ls, s.cbs r = CB.pure) → ls.length + 1 ≤ fuel →
      emit s fuel args = (some s, ls.map (fun r => Ev.call r args))) ∧
    (∀ (n : Nat) (args : List Nat) (fuel : Nat) (s : EmSt) (tr : List Ev),
      n + 1 ≤ fuel →
      runOps mkEmitter (List.replicate n (Op.add CB.pure)) = (some s, tr) →
      emit s fuel args = (some s, (List.range' 1 n).map (fun r => Ev.call r args))) := by
  constructor
  · intro s ls args fuel hinv hp hfuel
    exact emit_inert_exact s ls args fuel hinv (fun r hr => pure_inert s r (hp r hr)) hfuel
  · intro n args fuel s tr hfuel hrun
    obtain ⟨s0, hrun0, hinv0, hcbs0, he0, hid0⟩ := buildPure n
    rw [hrun0] at hrun
    simp only [Prod.mk.injEq, Option.some.injEq] at hrun
    obtain ⟨rfl, -⟩ := hrun
    exact emit_inert_exact s0 (List.range' 1 n) args fuel hinv0
      (fun r hr => pure_inert s0 r (hcbs0 r))
      (by rw [List.length_range']; omega)

/-- Witness for C1 at a concrete two-listener emitter. -/
theorem emit_fifo_witness :
    emit sEx 3 [5] = (some sEx, [Ev.call 1 [5], Ev.call 2 [5]]) :=
  emit_fifo.1 sEx [1, 2] [5] 3 sEx_inv (by decide) (by decide)

/-! ### Claim C2 -/

/-- C2 (confirmed): with listeners `pre ++ [x] ++ mid ++ [y] ++ post` registered in that
order, where `x`'s callback disposes the not-yet-visited listener `y` and every other
callback is a no-op, a single `emit()` raises no error, invokes exactly
`pre, x, mid, post` (skipping `y`), and leaves the list consistent: a second `emit()`
reaches exactly the surviving listeners `pre, x, mid, post` again. -/
theorem emit_dispose_unvisited (s : EmSt) (pre mid post : List Nat) (x y : Nat)
    (args args2 : List Nat) (fuel fuel2 : Nat)
    (hinv : EmInv s (pre ++ x :: (mid ++ y :: post)))
    (hx : s.cbs x = CB.disposeL y)
    (hpure : ∀ r ∈ pre ++ mid ++ post, s.cbs r = CB.pure)
    (hfuel : pre.length + (mid.length + post.length) + 2 ≤ fuel)
    (hfuel2 : pre.length + (mid.length + post.length) + 2 ≤ fuel2) :
    (runOps s [Op.emit fuel args, Op.emit fuel2 args2]).1.isSome = true ∧
    (runOps s [Op.emit fuel args, Op.emit fuel2 args2]).2 =
      (pre.map (fun r => Ev.call r args) ++
        Ev.call x args :: Ev.change true :: (mid ++ post).map (fun r => Ev.call r args)) ++
      (pre ++ x :: (mid ++ post)).map (fun r => Ev.call r args2) := by
  obtain ⟨s1, hemit1, hinv1, he1, hcbs1, hy1⟩ :=
    emit_dispose_run s pre mid post x y args fuel hinv hx hpure hfuel
  have hemit2 : emit s1 fuel2 args2 =
      (some s1, (pre ++ x :: (mid ++ post)).map (fun r => Ev.call r args2)) := by
    apply emit_inert_exact s1 (pre ++ x :: (mid ++ post)) args2 fuel2 hinv1
    · intro r hr
      rcases List.mem_append.mp hr with h1 | h1
      · have hmem : r ∈ pre ++ mid ++ post :=
          List.mem_append.mpr (Or.inl (List.mem_append.mpr (Or.inl h1)))
        exact pure_inert s1 r (by rw [hcbs1]; exact hpure r hmem)
      · rcases List.mem_cons.mp h1 with rfl | h2
        · unfold inert
          rw [hcbs1, hx]
          exact hy1
        · have hmem : r ∈ pre ++ mid ++ post := by
            rcases List.mem_append.mp h2 with h3 | h3
            · exact List.mem_append.mpr (Or.inl (List.mem_append.mpr (Or.inr h3)))
            · exact List.mem_append.mpr (Or.inr h3)
          exact pure_inert s1 r (by rw [hcbs1]; exact hpure r hmem)
    · simp only [List.length_append, List.length_cons]
      omega
  have hrunops : runOps s [Op.emit fuel args, Op.emit fuel2 args2] =
      (some s1,
        (pre.map (fun r => Ev.call r args) ++
          Ev.call x args :: Ev.change true :: (mid ++ post).map (fun r => Ev.call r args)) ++
        ((pre ++ x :: (mid ++ post)).map (fun r => Ev.call r args2) ++ [])) := by
    rw [runOps, show runOp s (Op.emit fuel args) = emit s fuel args from rfl, hemit1]
    dsimp only
    rw [runOps, show runOp s1 (Op.emit fuel2 args2) = emit s1 fuel2 args2 from rfl, hemit2]
    dsimp only [runOps]
  rw [hrunops]
  exact ⟨rfl, by simp⟩

/-- Witness for C2: listeners L1, L2, L3 with L2's callback disposing L3; one emission
calls L1 and L2 only, a second emission calls L1 and L2 again, no error. -/
theorem emit_dispose_unvisited_witness :
    (runOps sC2 [Op.emit 5 [7], Op.emit 5 [8]]).1.isSome = true ∧
    (runOps sC2 [Op.emit 5 [7], Op.emit 5 [8]]).2 =
      [Ev.call 1 [7], Ev.call 2 [7], Ev.change true] ++ [Ev.call 1 [8], Ev.call 2 [8]] := by
  have h := emit_dispose_unvisited sC2 [1] [] [] 2 3 [7] [8] 5 5 sC2_inv rfl (by decide)
    (by decide) (by decide)
  exact ⟨h.1, h.2⟩

/-! ### Claim C3 -/

/-- C3 counterexample: on a fresh emitter, listener 1 disposes itself during emission
(listener 2 still linked after it).  The emission does not continue: after listener 1's
callback returns, the walk reads the nulled `_next` link and the emission fails with a
TypeError (`none`); listener 2 is never invoked, refuting the claim that self-disposal
leaves the traversal intact and the emission terminates normally. -/
theorem emit_self_dispose_cex :
    runOps mkEmitter [Op.add (CB.disposeL 1), Op.add CB.pure, Op.emit 5 []] =
      (none, [Ev.change true, Ev.change true, Ev.call 1 [], Ev.change true]) := rfl

/-- C3 amended: a listener whose callback disposes that same listener during `emit()`
DOES corrupt the in-progress traversal: the walk next reads the self-disposed node's
nulled `_next` link, so the emission throws (returns `none`) right after that callback
(and its change notification); the listeners after it are never invoked. -/
theorem emit_self_dispose_fails (s : EmSt) (pre post : List Nat) (x : Nat)
    (args : List Nat) (fuel : Nat)
    (hinv : EmInv s (pre ++ x :: post)) (hx : s.cbs x = CB.disposeL x)
    (hpure : ∀ r ∈ pre, s.cbs r = CB.pure) (hfuel : pre.length + 2 ≤ fuel) :
    emit s fuel args = (none, pre.map (fun r => Ev.call r args) ++
      [Ev.call x args, Ev.change (!(pre ++ post).isEmpty)]) :=
  emit_self_dispose_run s pre post x args fuel hinv hx hpure hfuel

/-- Witness for the amended C3. -/
theorem emit_self_dispose_fails_witness :
    emit sC3 5 [9] = (none, [Ev.call 1 [9], Ev.change true]) :=
  emit_self_dispose_fails sC3 [] [2] 1 [9] 5 sC3_inv rfl (by decide) (by decide)

/-! ### Claim C4 -/

/-- C4 counterexample: on a fresh emitter with a single listener (id 1) whose callback
adds a new listener, one `emit()` run invokes the listener with id 2 — allocated during
that very emission — in the same pass, refuting the claim that a listener added during an
in-progress emit is not called during that emit pass. -/
theorem emit_mid_add_cex :
    (runOps mkEmitter [Op.add (CB.addL CB.pure), Op.emit 5 []]).2 =
      [Ev.change true, Ev.call 1 [], Ev.change true, Ev.call 2 []] ∧
    (runOps mkEmitter [Op.add (CB.addL CB.pure), Op.emit 5 []]).1.isSome = true :=
  ⟨rfl, rfl⟩

/-- C4 amended: a listener registered via `addListener` from inside a callback while an
`emit()` is in progress IS called during that same emit pass: it is spliced in before the
sentinel, which the walk has not yet reached, so the walk visits it after the remaining
listeners. -/
theorem emit_mid_add_called (s : EmSt) (pre post : List Nat) (x : Nat) (args : List Nat)
    (fuel : Nat) (hinv : EmInv s (pre ++ x :: post)) (hx : s.cbs x = CB.addL CB.pure)
    (hpure : ∀ r ∈ pre ++ post, s.cbs r = CB.pure)
    (hfuel : pre.length + post.length + 3 ≤ fuel) :
    (emit s fuel args).1.isSome = true ∧
    (emit s fuel args).2 = pre.map (fun r => Ev.call r args) ++
      Ev.call x args :: Ev.change true ::
        (post ++ [s.nextId]).map (fun r => Ev.call r args) :=
  emit_mid_add_run s pre post x args fuel hinv hx hpure hfuel

/-- Witness for the amended C4. -/
theorem emit_mid_add_called_witness :
    (emit sC4 5 [4]).1.isSome = true ∧
    (emit sC4 5 [4]).2 = [Ev.call 1 [4], Ev.change true, Ev.call 2 [4], Ev.call 3 [4]] := by
  have h := emit_mid_add_called sC4 [] [2] 1 [4] 5 sC4_inv rfl (by decide) (by decide)
  exact ⟨h.1, h.2⟩

/-! ### Claim C5 -/

/-- C5 counterexample: add a listener, dispose the emitter, then call `emit()`.  The
emission is not a silent no-op: it dereferences the emitter's nulled `_next` link and
throws (returns `none`).  No callback runs during the emit (the only event in the trace
is the change notification of the initial `addListener`). -/
theorem emit_after_dispose_cex :
    runOps mkEmitter [Op.add CB.pure, Op.disposeE 4, Op.emit 3 []] =
      (none, [Ev.change true]) := rfl

/-- C5 amended: calling `emit()` on an Emitter after `Emitter.dispose()` fails with an
error rather than being a silent no-op: after disposal the sentinel's `_next` is `null`
(not a self-loop), so `callAll` dereferences `null` and throws; no callback is invoked
(the trace of the two operations is empty). -/
theorem emit_after_dispose_errs (s : EmSt) (ls : List Nat) (fuel1 fuel2 : Nat)
    (args : List Nat) (hinv : EmInv s ls) (hfuel : ls.length + 2 ≤ fuel1) :
    runOps s [Op.disposeE fuel1, Op.emit fuel2 args] = (none, []) := by
  obtain ⟨h2, hdisp, hin, hout⟩ := emitterDispose_spec s ls fuel1 hinv hfuel
  have he2 : h2 s.e = ⟨none, none⟩ := hin s.e (List.mem_cons_self _ _)
  have hemit : emit { s with heap := h2, changeCB := false } fuel2 args = (none, []) := by
    rw [emit]
    have hb : (({ s with heap := h2, changeCB := false } : EmSt).heap
        ({ s with heap := h2, changeCB := false } : EmSt).e).nxt = none := by
      show (h2 s.e).nxt = none
      rw [he2]
    rw [hb]
    exact callAll_none_eq args fuel2 _
  rw [runOps, show runOp s (Op.disposeE fuel1) = (emitterDispose s fuel1, []) from rfl, hdisp]
  dsimp only
  rw [runOps, show runOp { s with heap := h2, changeCB := false } (Op.emit fuel2 args) =
    emit { s with heap := h2, changeCB := false } fuel2 args from rfl, hemit]
  rfl

/-- Witness for the amended C5. -/
theorem emit_after_dispose_errs_witness :
    runOps sEx [Op.disposeE 4, Op.emit 3 [1]] = (none, []) :=
  emit_after_dispose_errs sEx [1, 2] 4 3 [1] sEx_inv (by decide)

/-! ### Claim C6 -/

/-- The heap of a freshly created then disposed emitter. -/
def dE : EmSt :=
  { mkEmitter with heap := setPrv (setNxt mkEmitter.heap 0 none) 0 none, changeCB := false }

/-- C6 counterexample: after `Emitter.dispose()` on a fresh emitter, `hasListeners()`
returns `true` (since `_next` is `null`, and `null !== this`) although no listener is
linked — the claimed equivalence fails for sequences containing `Emitter.dispose`. -/
theorem hasListeners_after_dispose_cex :
    runOps mkEmitter [Op.disposeE 2] = (some dE, []) ∧
    hasListeners dE.heap dE.e = true ∧ ¬ HasLinkedListener dE := by
  refine ⟨rfl, rfl, ?_⟩
  rintro ⟨x, hxe, hxl⟩
  apply hxl
  have hx0 : x ≠ 0 := hxe
  show (dE.heap x).nxt = none
  show ((setPrv (setNxt mkEmitter.heap 0 none) 0 none) x).nxt = none
  rw [setPrv_nxt, setNxt_nxt, if_neg hx0]
  show ((setPrv (setNxt (fun _ => ⟨none, none⟩) 0 (some 0)) 0 (some 0)) x).nxt = none
  rw [setPrv_nxt, setNxt_nxt, if_neg hx0]

/-- C6 amended: for every sequence of `addListener`, `Listener.dispose` and `emit`
operations — excluding `Emitter.dispose` — that completes without error, `hasListeners()`
returns `true` iff at least one listener (a node other than the sentinel) is currently
linked. -/
theorem hasListeners_iff_linked (s : EmSt) (ls : List Nat) (ops : List Op) (s2 : EmSt)
    (tr : List Ev) (hinv : EmInv s ls) (hleg : legalCbs s)
    (hops : ∀ op ∈ ops, Op.legalB s.e op = true ∧ op.isDisposeE = false)
    (hrun : runOps s ops = (some s2, tr)) :
    (hasListeners s2.heap s2.e = true ↔ HasLinkedListener s2) := by
  obtain ⟨ls2, hinv2, hleg2, he2⟩ := runOps_pres ops s ls s2 tr hinv hleg hops hrun
  constructor
  · intro hh
    cases ls2 with
    | nil =>
      rw [EmInv_hasListeners s2 [] hinv2] at hh
      simp at hh
    | cons a as =>
      refine ⟨a, ring_ne_e s2 _ hinv2 a (List.mem_cons_self a as), ?_⟩
      rw [chainB_nxt_at s2.heap s2.e a as [] s2.e hinv2.chain]
      simp
  · rintro ⟨a, hae, hal⟩
    have har : a ∈ s2.e :: ls2 := linked_mem_ring s2 ls2 hinv2 a hal
    have hals : a ∈ ls2 := by
      rcases List.mem_cons.mp har with h1 | h1
      · exact absurd h1 hae
      · exact h1
    rw [EmInv_hasListeners s2 ls2 hinv2]
    cases ls2 with
    | nil => simp at hals
    | cons b bs => simp

/-- The state after registering one pure listener on a fresh emitter. -/
def sAdd1 : EmSt := (runOps mkEmitter [Op.add CB.pure]).1.getD mkEmitter

/-- Witness for the amended C6 after one `addListener`. -/
theorem hasListeners_iff_linked_witness :
    (hasListeners sAdd1.heap sAdd1.e = true ↔ HasLinkedListener sAdd1) :=
  hasListeners_iff_linked mkEmitter [] [Op.add CB.pure] sAdd1 [Ev.change true]
    EmInv_mkEmitter legalCbs_mkEmitter (by decide) rfl

/-! ### Claim C7 -/

/-- C7 (confirmed): `Emitter.dispose()` severs all listener nodes' links: afterwards the
sentinel and every previously linked listener have both links `null`, so each listener
satisfies `isDisposed()` independently; the change-notification callback is reset to the
no-op; and no listener callback and no change-notification callback fires during the
disposal (the operation's event trace is empty). -/
theorem emitter_dispose_severs (s : EmSt) (ls : List Nat) (fuel : Nat)
    (hinv : EmInv s ls) (hfuel : ls.length + 2 ≤ fuel) :
    (runOp s (Op.disposeE fuel)).2 = [] ∧
    ∃ s2, emitterDispose s fuel = some s2 ∧ s2.changeCB = false ∧
      s2.heap s.e = ⟨none, none⟩ ∧
      ∀ x ∈ ls, s2.heap x = ⟨none, none⟩ ∧ isDisposed s2.heap x = true := by
  obtain ⟨h2, hdisp, hin, hout⟩ := emitterDispose_spec s ls fuel hinv hfuel
  refine ⟨rfl, { s with heap := h2, changeCB := false }, hdisp, rfl,
    hin s.e (List.mem_cons_self _ _), ?_⟩
  intro x hx
  have hx2 := hin x (List.mem_cons_of_mem _ hx)
  refine ⟨hx2, ?_⟩
  show isDisposed h2 x = true
  rw [isDisposed, hx2]
  rfl

/-- Witness for C7. -/
theorem emitter_dispose_severs_witness :
    (runOp sEx (Op.disposeE 4)).2 = [] ∧ (emitterDispose sEx 4).isSome = true := by
  obtain ⟨h1, s2, h2, -⟩ := emitter_dispose_severs sEx [1, 2] 4 sEx_inv (by decide)
  refine ⟨h1, ?_⟩
  rw [h2]
  rfl

/-! ### Claim C8 -/

/-- C8 (confirmed): `Listener.dispose()` is idempotent.  Disposing an already-disposed
listener — including one whose links were severed by its Emitter's `dispose()` — is a
no-op: no error, no state change, and the change-notification hook does not fire again
(the event trace is empty). -/
theorem listener_dispose_idempotent :
    (∀ (s : EmSt) (y : Nat), isDisposed s.heap y = true →
      listenerDispose s y = (some s, [])) ∧
    (∀ (s : EmSt) (ls : List Nat) (fuel : Nat) (s2 : EmSt),
      EmInv s ls → ls.length + 2 ≤ fuel → emitterDispose s fuel = some s2 →
      ∀ x ∈ ls, listenerDispose s2 x = (some s2, [])) := by
  constructor
  · intro s y h
    rw [listenerDispose, h]
    simp
  · intro s ls fuel s2 hinv hfuel hdisp x hx
    obtain ⟨h2, hdisp2, hin, hout⟩ := emitterDispose_spec s ls fuel hinv hfuel
    rw [hdisp2] at hdisp
    simp only [Option.some.injEq] at hdisp
    subst hdisp
    have hx2 := hin x (List.mem_cons_of_mem _ hx)
    rw [listenerDispose]
    have hd : isDisposed ({ s with heap := h2, changeCB := false } : EmSt).heap x = true := by
      show isDisposed h2 x = true
      rw [isDisposed, hx2]
      rfl
    rw [hd]
    simp

/-- Witness for C8 at a never-linked (hence disposed) node. -/
theorem listener_dispose_idempotent_witness :
    listenerDispose sEx 5 = (some sEx, []) :=
  listener_dispose_idempotent.1 sEx 5 (by decide)

/-! ### Claim C9 -/

theorem insertBefore_disposed (h : Heap) (e w : Nat) (hew : e ≠ w)
    (hprv : (h e).prv = none) :
    insertBefore (setPrv (setNxt h w (some w)) w (some w)) e w = none := by
  rw [insertBefore]
  rw [show ((setPrv (setNxt h w (some w)) w (some w)) e).prv = none by
    rw [setPrv_prv, if_neg hew, setNxt_prv]; exact hprv]

theorem addListenerCore_disposed (s : EmSt) (cb : CB) (hew : s.e ≠ s.nextId)
    (hprv : (s.heap s.e).prv = none) : addListenerCore s cb = (none, []) := by
  simp only [addListenerCore, insertBefore_disposed s.heap s.e s.nextId hew hprv]

/-- C9 (confirmed): calling `addListener` on a disposed Emitter does not silently
register a listener: `_insertBefore` reads the emitter's nulled `_prev` link
(`const last = next._prev!`) and the following assignment dereferences `null`, so the
call fails with an error (`none`) rather than being a no-op. -/
theorem addListener_after_dispose_fails (s : EmSt) (ls : List Nat) (fuel : Nat) (s2 : EmSt)
    (cb : CB) (hinv : EmInv s ls) (hfuel : ls.length + 2 ≤ fuel)
    (hdisp : emitterDispose s fuel = some s2) :
    addListenerCore s2 cb = (none, []) := by
  obtain ⟨h2, hdisp2, hin, hout⟩ := emitterDispose_spec s ls fuel hinv hfuel
  rw [hdisp2] at hdisp
  simp only [Option.some.injEq] at hdisp
  subst hdisp
  have he2 := hin s.e (List.mem_cons_self _ _)
  apply addListenerCore_disposed
  · exact ne_of_lt (hinv.bound s.e (List.mem_cons_self _ _))
  · show (h2 s.e).prv = none
    rw [he2]

/-- The result of disposing the two-listener emitter `sEx`. -/
def sExD : EmSt := (emitterDispose sEx 4).getD mkEmitter

/-- Witness for C9. -/
theorem addListener_after_dispose_fails_witness :
    addListenerCore sExD CB.pure = (none, []) :=
  addListener_after_dispose_fails sEx [1, 2] 4 sExD CB.pure sEx_inv (by decide) rfl

/-! ### Claim C10 -/

/-- C10 (confirmed): for every function, bound-argument list of any length (including
lengths above 8, handled by the default branch) and argument, the length-specialised
closures agree with their generic forms: `bindB func b ()` computes `func b`,
`bindUB func b arg` computes `func (arg :: b)`, and `bindBU func b arg` computes
`func (b ++ [arg])` — the bound arguments kept in order in every case. -/
theorem bind_helpers_extensional {α β : Type} (func : List α → β) (b : List α)
    (u : Unit) (arg : α) :
    bindB func b u = func b ∧ bindUB func b arg = func (arg :: b) ∧
    bindBU func b arg = func (b ++ [arg]) := by
  rcases b with _ | ⟨a0, _ | ⟨a1, _ | ⟨a2, _ | ⟨a3, _ | ⟨a4, _ | ⟨a5, _ | ⟨a6, _ |
    ⟨a7, _ | ⟨a8, rest⟩⟩⟩⟩⟩⟩⟩⟩⟩ <;> exact ⟨rfl, rfl, rfl⟩
